import Mathlib

/-!
Automoderation room engine.

A shallow embedding of `src/backend/room.go`, `src/backend/user.go` and
`src/backend/http.go`.

* A `*User` is a heap address (`UserPtr`); `u == user` in the source is pointer
  equality, here equality of addresses.
* A Go map is an association list with distinct keys (`mapGet`, `mapSet`,
  `mapDelete`).  `range` over a map visits every key once in an order Go leaves
  unspecified: every function that ranges over a map takes the visiting order
  as an argument.
* A `Queue` is the list of the slice's elements.
* `getBytes` is injective on the three fields of a `BroadcatedMessage`; channel
  payloads are the messages themselves.
-/

namespace Automoderation

/-! ## Go maps -/

/-- Lookup `v, ok := m[key]`: `none` stands for `ok = false`. -/
def mapGet {κ α : Type} [DecidableEq κ] : List (κ × α) → κ → Option α
  | [], _ => none
  | (k, v) :: rest, key => if k = key then some v else mapGet rest key

/-- Assignment `m[key] = val`: overwrites the entry of `key`, or adds one. -/
def mapSet {κ α : Type} [DecidableEq κ] : List (κ × α) → κ → α → List (κ × α)
  | [], key, val => [(key, val)]
  | (k, v) :: rest, key, val =>
    if k = key then (key, val) :: rest else (k, v) :: mapSet rest key val

/-- Builtin `delete(m, key)`. -/
def mapDelete {κ α : Type} [DecidableEq κ] : List (κ × α) → κ → List (κ × α)
  | [], _ => []
  | (k, v) :: rest, key =>
    if k = key then mapDelete rest key else (k, v) :: mapDelete rest key

/-- The keys of a map, in storage order. -/
def mapKeys {κ α : Type} (m : List (κ × α)) : List κ := m.map Prod.fst

/-! ## room.go -/

/-- Address of a `User` object. -/
abbrev UserPtr := Nat

/-- Go `type Queue []*User`. -/
abbrev Queue := List UserPtr

/-- Go `const minPriority = 0`. -/
def minPriority : Nat := 0

/-- Go `const maxPriority = 4`. -/
def maxPriority : Nat := 4

/-- Go `type Room struct`: the name, the `users` map and the `queues` map.  The
mutex and the three channels are not data of the room. -/
structure Room where
  name : String
  users : List (UserPtr × Bool)
  queues : List (Nat × Queue)
deriving DecidableEq, Repr

/-- Go `newRoom`: empty `users`, and one empty queue for each priority from
`minPriority` up to `maxPriority`, assigned in increasing order. -/
def newRoom (name : String) : Room :=
  { name := name
    users := []
    queues := ((List.range (maxPriority + 1 - minPriority)).map (fun i => minPriority + i)).foldl
      (fun qs priority => mapSet qs priority ([] : Queue)) [] }

/-- Go `Queue.contains`: linear scan comparing pointers. -/
def Queue.contains : Queue → UserPtr → Bool
  | [], _ => false
  | u :: rest, user => if u = user then true else Queue.contains rest user

/-- Go `Room.add`. Returns the room after the call and the boolean result. -/
def Room.add (room : Room) (user : UserPtr) (priority : Nat) : Room × Bool :=
  match mapGet room.queues priority with
  | none => (room, false)
  | some queue =>
    if Queue.contains queue user then (room, false)
    else ({ room with queues := mapSet room.queues priority (queue ++ [user]) }, true)

/-- The index of the first element equal to `user`, as found by the loop
`for index, u := range queue` of `Room.remove`. -/
def Queue.firstIndex : Queue → UserPtr → Option Nat
  | [], _ => none
  | u :: rest, user =>
    if u = user then some 0 else (Queue.firstIndex rest user).map (fun i => i + 1)

/-- Go `Room.remove`: at the first match the queue becomes
`append(queue[:index], queue[index+1:]...)`. -/
def Room.remove (room : Room) (user : UserPtr) (priority : Nat) : Room × Bool :=
  match mapGet room.queues priority with
  | none => (room, false)
  | some queue =>
    match Queue.firstIndex queue user with
    | some index =>
      let spliced := queue.take index ++ queue.drop (index + 1)
      ({ room with queues := mapSet room.queues priority spliced }, true)
    | none => (room, false)

/-- Go `type BroadcatedMessage struct`. -/
structure BroadcatedMessage where
  Username : String
  Priority : Nat
  Cancel : Bool
deriving DecidableEq, Repr

/-- Go `type Message struct` (user.go): a decoded intent. -/
structure Message where
  Priority : Nat
  Cancel : Bool
deriving DecidableEq, Repr

/-- Go `maxMessageSize = 512` (user.go), the capacity of every `user.send`
channel (`make(chan []byte, maxMessageSize)`). -/
def maxMessageSize : Nat := 512

/-- A room together with, for every user, the values waiting in its `send`
channel (oldest first).  The channel has `maxMessageSize` slots; `writePump`,
which empties it, is not part of the model. -/
structure World where
  room : Room
  send : UserPtr → List BroadcatedMessage

/-- Go `User.broadcast`: `user.send <- b.getBytes()`, a plain send on a channel
of `maxMessageSize` slots.  With a free slot the value is appended.  On a full
channel the sender waits until `writePump` takes a value: `none`. -/
def User.broadcast (w : World) (user : UserPtr) (b : BroadcatedMessage) : Option World :=
  if (w.send user).length < maxMessageSize then
    some { w with send := Function.update w.send user (w.send user ++ [b]) }
  else none

/-- Inner loop of `Room.sendCurrentState`: `for _, author := range queue`.  The
result is the world reached and whether the loop is waiting on a full channel
there. -/
def Room.sendQueue (names : UserPtr → String) (user : UserPtr) (priority : Nat) :
    Queue → World → World × Bool
  | [], w => (w, false)
  | author :: rest, w =>
    match User.broadcast w user
        { Username := names author, Priority := priority, Cancel := false } with
    | some w1 => Room.sendQueue names user priority rest w1
    | none => (w, true)

/-- Outer loop of `Room.sendCurrentState`: `for priority, queue := range
room.queues`, visiting the keys in the order given. -/
def Room.sendQueues (names : UserPtr → String) (user : UserPtr) :
    List Nat → World → World × Bool
  | [], w => (w, false)
  | priority :: rest, w =>
    match mapGet w.room.queues priority with
    | some queue =>
      let result := Room.sendQueue names user priority queue w
      if result.2 then result else Room.sendQueues names user rest result.1
    | none => Room.sendQueues names user rest w

/-- Go `Room.sendCurrentState`.  `names` reads the field `name` of a user and
`order` is the order in which `range room.queues` visits the priorities.  The
second component is true when the call has not returned: it waits, holding
`room.mux`, on a send to the full channel of `user`. -/
def Room.sendCurrentState (names : UserPtr → String) (order : List Nat) (w : World)
    (user : UserPtr) : World × Bool :=
  Room.sendQueues names user order w

/-- Go `Room.reserved`: whether some key of `room.users` has the given name. -/
def Room.reserved (names : UserPtr → String) (room : Room) (userName : String) : Bool :=
  (mapKeys room.users).any (fun user => decide (names user = userName))

/-- What a call of `Room.broadcast` leaves behind: the channel contents, the
users handed to `room.unregister`, and, when the call never returns, the user
whose hand-off it is parked on. -/
structure BroadcastResult where
  send : UserPtr → List BroadcatedMessage
  handed : List UserPtr
  parkedOn : Option UserPtr

/-- The loop of Go `Room.broadcast` over the members in the order given.

`select { case user.send <- bytesToSend: default: room.unregister <- user }`
takes the first branch exactly when the channel has a free slot.  The second
branch is a plain send on `room.unregister`, which is unbuffered
(`make(chan *User)`) and received only by the `select` of `Room.run`; `accept`
is the number of values that receiver can still take while this call runs.
With `accept = 0` the send never completes. -/
def Room.broadcastLoop (room : Room) (b : BroadcatedMessage) :
    List UserPtr → Nat → (UserPtr → List BroadcatedMessage) → List UserPtr → BroadcastResult
  | [], _, send, handed => { send := send, handed := handed, parkedOn := none }
  | user :: rest, accept, send, handed =>
    match mapGet room.users user with
    | some true =>
      if (send user).length < maxMessageSize then
        Room.broadcastLoop room b rest accept (Function.update send user (send user ++ [b])) handed
      else
        match accept with
        | 0 => { send := send, handed := handed, parkedOn := some user }
        | n + 1 => Room.broadcastLoop room b rest n send (handed ++ [user])
    | _ => Room.broadcastLoop room b rest accept send handed

/-- Go `Room.broadcast`.  `order` is the order in which `range room.users`
visits the members.  The two call sites fix `accept`: inside `Room.run`
(room.go:165) the caller is the only receiver of `room.unregister`, so
`accept = 0`; inside `processMessage` (user.go:126) the caller holds `room.mux`,
`Room.run` takes one value and then waits for that mutex, so `accept ≤ 1`. -/
def Room.broadcast (order : List UserPtr) (accept : Nat) (w : World) (b : BroadcatedMessage) :
    BroadcastResult :=
  Room.broadcastLoop w.room b order accept w.send []

/-- First loop of the `unregister` case of `Room.run`:
`for priority := range room.queues`, collecting `prioritiesToClean`. -/
def Room.cleanQueues (user : UserPtr) : List Nat → Room → List Nat → Room × List Nat
  | [], room, prioritiesToClean => (room, prioritiesToClean)
  | priority :: rest, room, prioritiesToClean =>
    let result := room.remove user priority
    Room.cleanQueues user rest result.1
      (if result.2 then prioritiesToClean ++ [priority] else prioritiesToClean)

/-- What the `unregister` case of `Room.run` does up to its broadcasts. -/
structure Detached where
  room : Room
  closed : Bool
  events : List BroadcatedMessage
deriving DecidableEq, Repr

/-- The `unregister` case of Go `Room.run` for the received `user`, up to its
final loop: the room after `room.mux.Unlock()`, whether `user.conn.Close()` was
called, and the events the final loop is to broadcast (one per entry of
`prioritiesToClean`), in order.  `order` is the order in which
`range room.queues` visits the priorities. -/
def Room.unregister (names : UserPtr → String) (order : List Nat) (room : Room)
    (user : UserPtr) : Detached :=
  let cleaned := Room.cleanQueues user order room []
  let present := (mapGet cleaned.1.users user).isSome
  let room1 : Room :=
    if present then { cleaned.1 with users := mapDelete cleaned.1.users user } else cleaned.1
  { room := room1
    closed := present
    events := cleaned.2.map
      (fun priority => { Username := names user, Priority := priority, Cancel := true }) }

/-- What the final loop of the `unregister` case leaves behind: the channel
contents, the events for which `room.broadcast` was called (in order), and,
when a call never returns, the user whose hand-off it is parked on. -/
structure Broadcasts where
  send : UserPtr → List BroadcatedMessage
  issued : List BroadcatedMessage
  parkedOn : Option UserPtr

/-- The final loop of the `unregister` case: one `room.broadcast` per event,
each from inside `Room.run` (`accept = 0`).  `userOrder i` is the order of the
`range room.users` of the `i`-th call.  A call that parks ends the loop: the
later events are never passed to `room.broadcast`. -/
def Room.broadcastAll (room : Room) (userOrder : Nat → List UserPtr) :
    List BroadcatedMessage → Nat → (UserPtr → List BroadcatedMessage) →
      List BroadcatedMessage → Broadcasts
  | [], _, send, issued => { send := send, issued := issued, parkedOn := none }
  | b :: rest, i, send, issued =>
    let result := Room.broadcast (userOrder i) 0 { room := room, send := send } b
    match result.parkedOn with
    | some user => { send := result.send, issued := issued ++ [b], parkedOn := some user }
    | none => Room.broadcastAll room userOrder rest (i + 1) result.send (issued ++ [b])

/-- The whole `unregister` case of Go `Room.run`, broadcasts included. -/
def Room.runUnregister (names : UserPtr → String) (order : List Nat)
    (userOrder : Nat → List UserPtr) (w : World) (user : UserPtr) : Detached × Broadcasts :=
  let detached := Room.unregister names order w.room user
  (detached, Room.broadcastAll detached.room userOrder detached.events 0 w.send [])

/-- The `register` case of Go `Room.run`, up to its `sendCurrentState`. -/
def Room.register (room : Room) (user : UserPtr) : Room :=
  { room with users := mapSet room.users user false }

/-- The effect of Go `User.connect` on the room: `user.room.users[user] = true`. -/
def Room.connect (room : Room) (user : UserPtr) : Room :=
  { room with users := mapSet room.users user true }

/-- Go `processMessage` (user.go).  `decoded` is the result of
`json.Unmarshal` (`none` on error).  Returns the room and the event passed to
`room.broadcast`, if any. -/
def processMessage (names : UserPtr → String) (room : Room) (user : UserPtr)
    (decoded : Option Message) : Room × Option BroadcatedMessage :=
  match decoded with
  | none => (room, none)
  | some message =>
    let action : Room → UserPtr → Nat → Room × Bool :=
      if !message.Cancel then Room.add else Room.remove
    let result := action room user message.Priority
    if result.2 then
      (result.1, some { Username := names user, Priority := message.Priority,
                        Cancel := message.Cancel })
    else (result.1, none)

/-! ## user.go and http.go -/

/-- Go `type User struct`.  `room` is the owning `*Room`, named by its key in
the registry (rooms are created by `getOrCreateRoom` only and never dropped);
`conn` is the websocket handle, absent until `connect`.  The `send` channel is
kept in `World.send`. -/
structure User where
  name : String
  room : String
  conn : Option Nat
deriving DecidableEq, Repr

/-- Go `type AuthRequest struct`. -/
structure AuthRequest where
  RoomName : String
  UserName : String
deriving DecidableEq, Repr

/-- What a handler writes to its `http.ResponseWriter`, one entry per
`WriteHeader` call with the body that follows it. -/
inductive Response where
  | badRequest
  | conflict
  | ok (token : String)
  | unauthorized
  | internalServerError
deriving DecidableEq, Repr

/-- Go `type roomStorage struct`, with the `User` objects it points to: `heap`
holds every `User` made by `newUser`, the address of a user being its
position. -/
structure roomStorage where
  rooms : List (String × Room)
  users : List (String × UserPtr)
  heap : List User
deriving DecidableEq, Repr

/-- Go `newRoomStorage`. -/
def newRoomStorage : roomStorage := { rooms := [], users := [], heap := [] }

/-- Reading `user.name` through a pointer. -/
def roomStorage.names (s : roomStorage) (user : UserPtr) : String :=
  match s.heap[user]? with
  | some u => u.name
  | none => ""

/-- Go `roomStorage.getOrCreateRoom`. -/
def roomStorage.getOrCreateRoom (s : roomStorage) (name : String) : roomStorage × Room :=
  match mapGet s.rooms name with
  | some room => (s, room)
  | none => ({ s with rooms := mapSet s.rooms name (newRoom name) }, newRoom name)

/-- Go `roomStorage.serveAuth`.  `decoded` is the result of decoding the body
(`none` on error) and `token` the value drawn by `randstr.Hex(32)`.  There is no
`return` after the conflict response: the token is issued all the same. -/
def roomStorage.serveAuth (s : roomStorage) (decoded : Option AuthRequest) (token : String) :
    roomStorage × List Response :=
  match decoded with
  | none => (s, [Response.badRequest])
  | some authRequest =>
    if authRequest.RoomName = "" ∨ authRequest.UserName = "" then (s, [Response.badRequest])
    else
      let got := s.getOrCreateRoom authRequest.RoomName
      let first : List Response :=
        if Room.reserved got.1.names got.2 authRequest.UserName then [Response.conflict] else []
      let user : UserPtr := got.1.heap.length
      let made : User := { name := authRequest.UserName, room := authRequest.RoomName, conn := none }
      ({ got.1 with users := mapSet got.1.users token user, heap := got.1.heap ++ [made] },
        first ++ [Response.ok token])

/-- Go `User.connect`: stores the connection, starts the two pumps, and sets
`user.room.users[user] = true`. -/
def User.connect (s : roomStorage) (user : UserPtr) (conn : Nat) : roomStorage :=
  match s.heap[user]? with
  | none => s
  | some u =>
    match mapGet s.rooms u.room with
    | none => s
    | some room =>
      { s with heap := s.heap.set user { u with conn := some conn },
               rooms := mapSet s.rooms u.room (room.connect user) }

/-- Go `roomStorage.serveWs`.  `upgrade` is the result of `upgrader.Upgrade`
(`none` on error); `order` is the visiting order of the replay.  The last
component is true when the handler has not returned because its replay waits
on a full channel. -/
def roomStorage.serveWs (s : roomStorage) (token : String) (upgrade : Option Nat)
    (order : List Nat) (send : UserPtr → List BroadcatedMessage) :
    roomStorage × (UserPtr → List BroadcatedMessage) × List Response × Bool :=
  match mapGet s.users token with
  | none => (s, send, [Response.unauthorized], false)
  | some user =>
    match upgrade with
    | none => (s, send, [Response.internalServerError], false)
    | some conn =>
      let s1 := User.connect s user conn
      match (s1.heap[user]?).bind (fun u => mapGet s1.rooms u.room) with
      | some room =>
        let replay := Room.sendCurrentState s1.names order { room := room, send := send } user
        (s1, replay.1.send, [], replay.2)
      | none => (s1, send, [], false)

/-- Running a room operation on `user.room`. -/
def roomStorage.onRoom (s : roomStorage) (user : UserPtr) (f : Room → Room) : roomStorage :=
  match s.heap[user]? with
  | none => s
  | some u =>
    match mapGet s.rooms u.room with
    | none => s
    | some room => { s with rooms := mapSet s.rooms u.room (f room) }

/-- The liveness flag of `user` in the member set `user.room.users`, if it is
a key there. -/
def roomStorage.flagOf (s : roomStorage) (user : UserPtr) : Option Bool :=
  match s.heap[user]? with
  | none => none
  | some u =>
    match mapGet s.rooms u.room with
    | none => none
    | some room => mapGet room.users user

/-- Every `User` object points to a room that is in the registry. -/
def roomStorage.wellFormed (s : roomStorage) : Bool :=
  s.heap.all (fun u => (mapGet s.rooms u.room).isSome)

/-- Whether `user` is a key of the member set `user.room.users`. -/
def roomStorage.isMember (s : roomStorage) (user : UserPtr) : Bool :=
  match s.heap[user]? with
  | none => false
  | some u =>
    match mapGet s.rooms u.room with
    | none => false
    | some room => (mapGet room.users user).isSome

/-- The entry points that change the registry, the token table, the user
objects or a room. -/
inductive Action where
  | serveAuth (decoded : Option AuthRequest) (token : String)
  | serveWs (token : String) (upgrade : Option Nat)
  | processMessage (user : UserPtr) (decoded : Option Message)
  | unregister (user : UserPtr) (order : List Nat)
deriving DecidableEq, Repr

/-- The storage after one action.  Channel contents are not part of the
storage; the replay of `serveWs` does not touch it. -/
def roomStorage.step (s : roomStorage) : Action → roomStorage
  | Action.serveAuth decoded token => (s.serveAuth decoded token).1
  | Action.serveWs token upgrade => (s.serveWs token upgrade [] (fun _ => [])).1
  | Action.processMessage user decoded =>
    s.onRoom user (fun room => (processMessage s.names room user decoded).1)
  | Action.unregister user order =>
    s.onRoom user (fun room => (Room.unregister s.names order room user).room)

/-- The storage after a sequence of actions. -/
def roomStorage.run (s : roomStorage) (actions : List Action) : roomStorage :=
  actions.foldl roomStorage.step s

/-- Whether the action is a `serveWs` request whose token maps to `user` and
whose upgrade succeeds, the only requests that reach `User.connect`. -/
def roomStorage.redeems (s : roomStorage) (user : UserPtr) : Action → Bool
  | Action.serveWs token (some _) => decide (mapGet s.users token = some user)
  | _ => false

/-- No action of the sequence, run from `s`, redeems a token of `user`. -/
def roomStorage.neverRedeems (user : UserPtr) : roomStorage → List Action → Bool
  | _, [] => true
  | s, a :: rest => !(s.redeems user a) && roomStorage.neverRedeems user (s.step a) rest

/-- No two distinct members of the member set of one room have the same
name. -/
def roomStorage.namesUnique (s : roomStorage) : Prop :=
  ∀ name room, mapGet s.rooms name = some room →
    ∀ a b, (mapGet room.users a).isSome = true → (mapGet room.users b).isSome = true →
      s.names a = s.names b → a = b

/-- Whether `user` is in the queue of `priority`. -/
def Room.queued (room : Room) (user : UserPtr) (priority : Nat) : Bool :=
  match mapGet room.queues priority with
  | some queue => decide (user ∈ queue)
  | none => false

/-- The rooms the program can hold: made by `newRoom`, changed by the
functions of room.go and user.go that write to a room.  The `unregister` case
visits the priorities in any order Go may choose. -/
inductive Room.Reachable : Room → Prop where
  | newRoom (name : String) : Room.Reachable (newRoom name)
  | add {room : Room} (user : UserPtr) (priority : Nat) :
      Room.Reachable room → Room.Reachable (room.add user priority).1
  | remove {room : Room} (user : UserPtr) (priority : Nat) :
      Room.Reachable room → Room.Reachable (room.remove user priority).1
  | processMessage {room : Room} (names : UserPtr → String) (user : UserPtr)
      (decoded : Option Message) :
      Room.Reachable room → Room.Reachable (processMessage names room user decoded).1
  | unregister {room : Room} (names : UserPtr → String) (order : List Nat) (user : UserPtr) :
      order.Perm (mapKeys room.queues) → Room.Reachable room →
      Room.Reachable (Room.unregister names order room user).room
  | register {room : Room} (user : UserPtr) :
      Room.Reachable room → Room.Reachable (room.register user)
  | connect {room : Room} (user : UserPtr) :
      Room.Reachable room → Room.Reachable (room.connect user)

/-- The shape every reachable room has: the five priorities as keys, and no
repeated member in a queue. -/
def Room.Inv (room : Room) : Prop :=
  mapKeys room.queues = [0, 1, 2, 3, 4] ∧
    ∀ p q, mapGet room.queues p = some q → q.Nodup

/-! ## Maps -/

section MapLemmas

variable {κ α : Type} [DecidableEq κ]

theorem mapGet_mapSet_self (m : List (κ × α)) (k : κ) (v : α) :
    mapGet (mapSet m k v) k = some v := by
  induction m with
  | nil => simp [mapSet, mapGet]
  | cons e rest ih =>
    obtain ⟨k0, v0⟩ := e
    by_cases h : k0 = k
    · simp [mapSet, mapGet, h]
    · simp [mapSet, mapGet, h, ih]

theorem mapGet_mapSet_ne (m : List (κ × α)) {k k' : κ} (v : α) (hne : k ≠ k') :
    mapGet (mapSet m k v) k' = mapGet m k' := by
  induction m with
  | nil => simp [mapSet, mapGet, hne]
  | cons e rest ih =>
    obtain ⟨k0, v0⟩ := e
    by_cases h : k0 = k
    · subst h
      simp [mapSet, mapGet, hne]
    · by_cases h' : k0 = k'
      · subst h'
        simp [mapSet, mapGet, h]
      · simp [mapSet, mapGet, h, h', ih]

theorem mapKeys_mapSet (m : List (κ × α)) (k : κ) (v w : α) (h : mapGet m k = some w) :
    mapKeys (mapSet m k v) = mapKeys m := by
  induction m with
  | nil => simp [mapGet] at h
  | cons e rest ih =>
    obtain ⟨k0, v0⟩ := e
    by_cases hk : k0 = k
    · simp [mapSet, mapKeys, hk]
    · have h' : mapGet rest k = some w := by simpa [mapGet, hk] using h
      have := ih h'
      simp only [mapKeys] at this
      simp [mapSet, mapKeys, hk, this]

theorem mapGet_isSome_iff (m : List (κ × α)) (k : κ) :
    (∃ v, mapGet m k = some v) ↔ k ∈ mapKeys m := by
  induction m with
  | nil => simp [mapGet, mapKeys]
  | cons e rest ih =>
    obtain ⟨k0, v0⟩ := e
    by_cases hk : k0 = k
    · simp [mapGet, mapKeys, hk]
    · have hk' : ¬ k = k0 := fun h => hk h.symm
      simp only [mapKeys] at ih
      simp [mapGet, mapKeys, hk, hk', ih]

theorem mapGet_mapDelete_self (m : List (κ × α)) (k : κ) :
    mapGet (mapDelete m k) k = none := by
  induction m with
  | nil => simp [mapDelete, mapGet]
  | cons e rest ih =>
    obtain ⟨k0, v0⟩ := e
    by_cases hk : k0 = k
    · simp [mapDelete, hk, ih]
    · simp [mapDelete, mapGet, hk, ih]

theorem mapGet_mapDelete_ne (m : List (κ × α)) {k k' : κ} (hne : k ≠ k') :
    mapGet (mapDelete m k) k' = mapGet m k' := by
  induction m with
  | nil => simp [mapDelete, mapGet]
  | cons e rest ih =>
    obtain ⟨k0, v0⟩ := e
    by_cases hk : k0 = k
    · subst hk
      simp [mapDelete, mapGet, hne, ih]
    · by_cases hk' : k0 = k'
      · subst hk'
        simp [mapDelete, mapGet, hk]
      · simp [mapDelete, mapGet, hk, hk', ih]

end MapLemmas

/-! ## Queues -/

theorem Queue.contains_iff (q : Queue) (user : UserPtr) :
    Queue.contains q user = true ↔ user ∈ q := by
  induction q with
  | nil => simp [Queue.contains]
  | cons u rest ih =>
    by_cases h : u = user
    · simp [Queue.contains, h]
    · have h' : ¬ user = u := fun e => h e.symm
      simp [Queue.contains, h, h', ih]

theorem Queue.firstIndex_eq_none (q : Queue) (user : UserPtr) :
    Queue.firstIndex q user = none ↔ user ∉ q := by
  induction q with
  | nil => simp [Queue.firstIndex]
  | cons u rest ih =>
    by_cases h : u = user
    · simp [Queue.firstIndex, h]
    · have h' : ¬ user = u := fun e => h e.symm
      simp [Queue.firstIndex, h, h', ih]

theorem Queue.splice_eq_erase (q : Queue) (user : UserPtr) (index : Nat)
    (h : Queue.firstIndex q user = some index) :
    q.take index ++ q.drop (index + 1) = q.erase user := by
  induction q generalizing index with
  | nil => simp [Queue.firstIndex] at h
  | cons u rest ih =>
    by_cases hu : u = user
    · subst hu
      simp [Queue.firstIndex] at h
      subst h
      simp
    · simp only [Queue.firstIndex, hu, if_false, Option.map_eq_some'] at h
      obtain ⟨j, hj, rfl⟩ := h
      have := ih j hj
      simp [List.erase_cons, hu, this]

theorem Queue.firstIndex_isSome_of_mem (q : Queue) (user : UserPtr) (h : user ∈ q) :
    ∃ index, Queue.firstIndex q user = some index := by
  cases hq : Queue.firstIndex q user with
  | none => exact absurd h ((Queue.firstIndex_eq_none q user).1 hq)
  | some index => exact ⟨index, rfl⟩

/-! ## `Room.add` and `Room.remove` -/

theorem Room.add_of_none (room : Room) (user : UserPtr) (priority : Nat)
    (h : mapGet room.queues priority = none) : room.add user priority = (room, false) := by
  simp [Room.add, h]

theorem Room.add_of_mem (room : Room) (user : UserPtr) (priority : Nat) (q : Queue)
    (h : mapGet room.queues priority = some q) (hm : user ∈ q) :
    room.add user priority = (room, false) := by
  simp [Room.add, h, (Queue.contains_iff q user).2 hm]

theorem Room.add_of_not_mem (room : Room) (user : UserPtr) (priority : Nat) (q : Queue)
    (h : mapGet room.queues priority = some q) (hm : user ∉ q) :
    room.add user priority =
      ({ room with queues := mapSet room.queues priority (q ++ [user]) }, true) := by
  have hc : Queue.contains q user = false := by
    cases hq : Queue.contains q user with
    | false => rfl
    | true => exact absurd ((Queue.contains_iff q user).1 hq) hm
  simp [Room.add, h, hc]

theorem Room.remove_of_none (room : Room) (user : UserPtr) (priority : Nat)
    (h : mapGet room.queues priority = none) : room.remove user priority = (room, false) := by
  simp [Room.remove, h]

theorem Room.remove_of_not_mem (room : Room) (user : UserPtr) (priority : Nat) (q : Queue)
    (h : mapGet room.queues priority = some q) (hm : user ∉ q) :
    room.remove user priority = (room, false) := by
  simp [Room.remove, h, (Queue.firstIndex_eq_none q user).2 hm]

theorem Room.remove_of_mem (room : Room) (user : UserPtr) (priority : Nat) (q : Queue)
    (h : mapGet room.queues priority = some q) (hm : user ∈ q) :
    room.remove user priority =
      ({ room with queues := mapSet room.queues priority (q.erase user) }, true) := by
  obtain ⟨index, hi⟩ := Queue.firstIndex_isSome_of_mem q user hm
  simp [Room.remove, h, hi, Queue.splice_eq_erase q user index hi]

theorem Room.add_users (room : Room) (user : UserPtr) (priority : Nat) :
    (room.add user priority).1.users = room.users ∧
      (room.add user priority).1.name = room.name := by
  cases h : mapGet room.queues priority with
  | none => simp [Room.add_of_none room user priority h]
  | some q =>
    by_cases hm : user ∈ q
    · simp [Room.add_of_mem room user priority q h hm]
    · simp [Room.add_of_not_mem room user priority q h hm]

theorem Room.remove_users (room : Room) (user : UserPtr) (priority : Nat) :
    (room.remove user priority).1.users = room.users ∧
      (room.remove user priority).1.name = room.name := by
  cases h : mapGet room.queues priority with
  | none => simp [Room.remove_of_none room user priority h]
  | some q =>
    by_cases hm : user ∈ q
    · simp [Room.remove_of_mem room user priority q h hm]
    · simp [Room.remove_of_not_mem room user priority q h hm]

/-- The queue read at `priority` after `Room.remove user p`. -/
theorem Room.remove_get (room : Room) (user : UserPtr) (p priority : Nat) :
    mapGet (room.remove user p).1.queues priority =
      if priority = p then (mapGet room.queues priority).map (fun q => q.erase user)
      else mapGet room.queues priority := by
  cases h : mapGet room.queues p with
  | none =>
    rw [Room.remove_of_none room user p h]
    by_cases hp : priority = p
    · subst hp
      simp [h]
    · simp [hp]
  | some q =>
    by_cases hm : user ∈ q
    · rw [Room.remove_of_mem room user p q h hm]
      by_cases hp : priority = p
      · subst hp
        simp [h, mapGet_mapSet_self]
      · have hne : p ≠ priority := fun e => hp e.symm
        simp [hp, mapGet_mapSet_ne _ _ hne]
    · rw [Room.remove_of_not_mem room user p q h hm]
      by_cases hp : priority = p
      · subst hp
        simp [h, List.erase_of_not_mem hm]
      · simp [hp]

/-- The result of `Room.remove` says whether the member was queued. -/
theorem Room.remove_result (room : Room) (user : UserPtr) (p : Nat) :
    (room.remove user p).2 = true ↔ ∃ q, mapGet room.queues p = some q ∧ user ∈ q := by
  cases h : mapGet room.queues p with
  | none => simp [Room.remove_of_none room user p h]
  | some q =>
    by_cases hm : user ∈ q
    · simp [Room.remove_of_mem room user p q h hm, hm]
    · simp [Room.remove_of_not_mem room user p q h hm, hm]

/-! ## The invariant of reachable rooms -/

theorem Room.Inv.setQueue {room : Room} (hinv : room.Inv) (p : Nat) (q q' : Queue)
    (h : mapGet room.queues p = some q) (hq' : q'.Nodup) :
    Room.Inv { room with queues := mapSet room.queues p q' } := by
  refine ⟨?_, ?_⟩
  · have := mapKeys_mapSet room.queues p q' q h
    simpa [this] using hinv.1
  · intro p0 q0 h0
    by_cases hp : p = p0
    · subst hp
      simp only [mapGet_mapSet_self] at h0
      cases h0
      exact hq'
    · simp only [mapGet_mapSet_ne _ _ hp] at h0
      exact hinv.2 p0 q0 h0

theorem newRoom_queues (name : String) :
    (newRoom name).queues = [(0, []), (1, []), (2, []), (3, []), (4, [])] := rfl

theorem Room.Inv.ofNewRoom (name : String) : (newRoom name).Inv := by
  refine ⟨by rw [newRoom_queues]; rfl, ?_⟩
  intro p q h
  rw [newRoom_queues] at h
  simp only [mapGet] at h
  split_ifs at h <;> simp_all

theorem Room.Inv.add {room : Room} (hinv : room.Inv) (user : UserPtr) (priority : Nat) :
    (room.add user priority).1.Inv := by
  cases h : mapGet room.queues priority with
  | none => simpa [Room.add_of_none room user priority h] using hinv
  | some q =>
    by_cases hm : user ∈ q
    · simpa [Room.add_of_mem room user priority q h hm] using hinv
    · rw [Room.add_of_not_mem room user priority q h hm]
      refine hinv.setQueue priority q _ h ?_
      exact List.Nodup.append (hinv.2 priority q h) (List.nodup_singleton user)
        (by
          intro a ha hb
          rw [List.mem_singleton] at hb
          exact hm (hb ▸ ha))

theorem Room.Inv.remove {room : Room} (hinv : room.Inv) (user : UserPtr) (priority : Nat) :
    (room.remove user priority).1.Inv := by
  cases h : mapGet room.queues priority with
  | none => simpa [Room.remove_of_none room user priority h] using hinv
  | some q =>
    by_cases hm : user ∈ q
    · rw [Room.remove_of_mem room user priority q h hm]
      exact hinv.setQueue priority q _ h ((hinv.2 priority q h).erase user)
    · simpa [Room.remove_of_not_mem room user priority q h hm] using hinv

theorem Room.Inv.cleanQueues (user : UserPtr) (order : List Nat) :
    ∀ (room : Room) (acc : List Nat), room.Inv → (Room.cleanQueues user order room acc).1.Inv := by
  induction order with
  | nil => intro room acc h; simpa [Room.cleanQueues] using h
  | cons p rest ih =>
    intro room acc h
    simp only [Room.cleanQueues]
    exact ih _ _ (h.remove user p)

theorem Room.Inv.users {room : Room} (hinv : room.Inv) (users : List (UserPtr × Bool)) :
    Room.Inv { room with users := users } := hinv

theorem Room.Inv.unregister {room : Room} (hinv : room.Inv) (names : UserPtr → String)
    (order : List Nat) (user : UserPtr) : (Room.unregister names order room user).room.Inv := by
  have h := Room.Inv.cleanQueues user order room [] hinv
  simp only [Room.unregister]
  split_ifs
  · exact h.users _
  · exact h

theorem processMessage_join (names : UserPtr → String) (room : Room) (user : UserPtr)
    (p : Nat) :
    processMessage names room user (some { Priority := p, Cancel := false }) =
      ((room.add user p).1,
        if (room.add user p).2 then some { Username := names user, Priority := p, Cancel := false }
        else none) := by
  simp only [processMessage]
  split_ifs <;> simp_all

theorem processMessage_leave (names : UserPtr → String) (room : Room) (user : UserPtr)
    (p : Nat) :
    processMessage names room user (some { Priority := p, Cancel := true }) =
      ((room.remove user p).1,
        if (room.remove user p).2 then some { Username := names user, Priority := p, Cancel := true }
        else none) := by
  simp only [processMessage]
  split_ifs <;> simp_all

theorem Room.Inv.processMessage {room : Room} (hinv : room.Inv) (names : UserPtr → String)
    (user : UserPtr) (decoded : Option Message) :
    (processMessage names room user decoded).1.Inv := by
  cases decoded with
  | none => simpa [processMessage] using hinv
  | some message =>
    obtain ⟨p, c⟩ := message
    cases c with
    | false =>
      rw [processMessage_join]
      exact hinv.add user p
    | true =>
      rw [processMessage_leave]
      exact hinv.remove user p

theorem Room.Reachable.inv {room : Room} (h : room.Reachable) : room.Inv := by
  induction h with
  | newRoom name => exact Room.Inv.ofNewRoom name
  | add user priority _ ih => exact ih.add user priority
  | remove user priority _ ih => exact ih.remove user priority
  | processMessage names user decoded _ ih => exact ih.processMessage names user decoded
  | unregister names order user _ _ ih => exact ih.unregister names order user
  | register user _ ih => exact ih.users _
  | connect user _ ih => exact ih.users _

theorem Room.Inv.get_iff {room : Room} (hinv : room.Inv) (p : Nat) :
    (∃ q, mapGet room.queues p = some q) ↔ (minPriority ≤ p ∧ p ≤ maxPriority) := by
  rw [mapGet_isSome_iff, hinv.1]
  simp [minPriority, maxPriority]
  omega

/-! ## Contracts of `Room.add`, `Room.remove` and `processMessage` -/

/-- C1: in a reachable room, `Room.add m p` returns true exactly when `p` lies
in `minPriority..maxPriority` and `m` is not in the queue of `p`.  On true the
queue of `p` is the old one with `m` appended and nothing else changes; on false
the room is unchanged.  Adding twice with `m` absent at first gives true, then
false, and leaves one entry of `m`. -/
theorem Room.add_contract (room : Room) (hreach : room.Reachable) (m : UserPtr) (p : Nat) :
    ((room.add m p).2 = true ↔
      (minPriority ≤ p ∧ p ≤ maxPriority) ∧ ∀ q, mapGet room.queues p = some q → m ∉ q) ∧
    ((room.add m p).2 = true →
      (∃ q, mapGet room.queues p = some q ∧
        mapGet (room.add m p).1.queues p = some (q ++ [m])) ∧
      (∀ p', p' ≠ p → mapGet (room.add m p).1.queues p' = mapGet room.queues p') ∧
      mapKeys (room.add m p).1.queues = mapKeys room.queues ∧
      (room.add m p).1.users = room.users) ∧
    ((room.add m p).2 = false → (room.add m p).1 = room) ∧
    ((minPriority ≤ p ∧ p ≤ maxPriority) → (∀ q, mapGet room.queues p = some q → m ∉ q) →
      (room.add m p).2 = true ∧ ((room.add m p).1.add m p).2 = false ∧
      ∃ q, mapGet ((room.add m p).1.add m p).1.queues p = some q ∧ q.count m = 1) := by
  have hinv := hreach.inv
  cases h : mapGet room.queues p with
  | none =>
    have hp : ¬ (minPriority ≤ p ∧ p ≤ maxPriority) := by
      intro hp
      obtain ⟨q, hq⟩ := (hinv.get_iff p).2 hp
      simp [h] at hq
    simp [Room.add_of_none room m p h, hp]
  | some q =>
    have hp : minPriority ≤ p ∧ p ≤ maxPriority := (hinv.get_iff p).1 ⟨q, h⟩
    by_cases hm : m ∈ q
    · simp [Room.add_of_mem room m p q h hm, hm]
    · have hadd := Room.add_of_not_mem room m p q h hm
      have hget : mapGet (room.add m p).1.queues p = some (q ++ [m]) := by
        simp [hadd, mapGet_mapSet_self]
      have hsecond := Room.add_of_mem (room.add m p).1 m p (q ++ [m]) hget (by simp)
      refine ⟨?_, ?_, ?_, ?_⟩
      · simp [hadd, hm, hp]
      · intro _
        refine ⟨⟨q, rfl, hget⟩, ?_, ?_, ?_⟩
        · intro p' hp'
          have hne : p ≠ p' := fun e => hp' e.symm
          simp [hadd, mapGet_mapSet_ne _ _ hne]
        · simp [hadd, mapKeys_mapSet room.queues p _ q h]
        · simp [hadd]
      · simp [hadd]
      · intro _ _
        refine ⟨by simp [hadd], by simp [hsecond], q ++ [m], ?_, ?_⟩
        · rw [hsecond]
          exact hget
        · simp [List.count_append, List.count_eq_zero_of_not_mem hm]

/-- Witness of C1 at the fresh room `"standup"`, member `7`, priority `2`. -/
theorem Room.add_contract_witness :
    ((newRoom "standup").add 7 2).2 = true ∧
      (((newRoom "standup").add 7 2).1.add 7 2).2 = false ∧
      ((newRoom "standup").add 7 2).1.users = (newRoom "standup").users :=
  ⟨by decide, by decide,
    ((Room.add_contract (newRoom "standup") (Room.Reachable.newRoom "standup") 7 2).2.1
      (by decide)).2.2.2⟩

/-- C2: in a reachable room, `Room.remove m p` returns true exactly when `m`
is in the queue of `p`.  On true that queue loses the entry of `m` and keeps the
others in order, and nothing else changes; on false the room is unchanged. -/
theorem Room.remove_contract (room : Room) (hreach : room.Reachable) (m : UserPtr) (p : Nat) :
    ((room.remove m p).2 = true ↔ ∃ q, mapGet room.queues p = some q ∧ m ∈ q) ∧
    ((room.remove m p).2 = true →
      (∃ q, mapGet room.queues p = some q ∧
        mapGet (room.remove m p).1.queues p = some (q.filter (fun u => decide (u ≠ m))) ∧
        ∀ front back, q = front ++ m :: back →
          mapGet (room.remove m p).1.queues p = some (front ++ back)) ∧
      (∀ p', p' ≠ p → mapGet (room.remove m p).1.queues p' = mapGet room.queues p') ∧
      mapKeys (room.remove m p).1.queues = mapKeys room.queues ∧
      (room.remove m p).1.users = room.users) ∧
    ((room.remove m p).2 = false → (room.remove m p).1 = room) := by
  have hinv := hreach.inv
  refine ⟨Room.remove_result room m p, ?_, ?_⟩
  · intro htrue
    obtain ⟨q, hq, hm⟩ := (Room.remove_result room m p).1 htrue
    have hnd : q.Nodup := hinv.2 p q hq
    have hrem := Room.remove_of_mem room m p q hq hm
    have hget : mapGet (room.remove m p).1.queues p = some (q.erase m) := by
      simp [hrem, mapGet_mapSet_self]
    refine ⟨⟨q, hq, ?_, ?_⟩, ?_, ?_, ?_⟩
    · rw [hget, hnd.erase_eq_filter]
      congr 1
      apply List.filter_congr
      intro u _
      by_cases hu : u = m <;> simp [hu]
    · intro front back hsplit
      rw [hget]
      subst hsplit
      have hfront : m ∉ front := by
        intro hmem
        have := List.nodup_append.1 hnd
        exact this.2.2 hmem (List.mem_cons_self m back) 
      rw [List.erase_append_right _ hfront]
      simp
    · intro p' hp'
      have hne : p ≠ p' := fun e => hp' e.symm
      simp [hrem, mapGet_mapSet_ne _ _ hne]
    · simp [hrem, mapKeys_mapSet room.queues p _ q hq]
    · simp [hrem]
  · intro hfalse
    cases h : mapGet room.queues p with
    | none => simp [Room.remove_of_none room m p h]
    | some q =>
      by_cases hm : m ∈ q
      · simp [Room.remove_of_mem room m p q h hm] at hfalse
      · simp [Room.remove_of_not_mem room m p q h hm]

/-- Witness of C2: members `1`, `2`, `3` join priority `2` in this order and
`2` leaves. -/
theorem Room.remove_contract_witness :
    mapGet (((((newRoom "standup").add 1 2).1.add 2 2).1.add 3 2).1.remove 2 2).1.queues 2 =
      some [1, 3] := by
  have hreach : (((newRoom "standup").add 1 2).1.add 2 2).1.add 3 2 |>.1.Reachable :=
    Room.Reachable.add 3 2 (Room.Reachable.add 2 2
      (Room.Reachable.add 1 2 (Room.Reachable.newRoom "standup")))
  have h := (Room.remove_contract _ hreach 2 2).2.1 (by decide)
  obtain ⟨⟨q, hq, _, hsplit⟩, _⟩ := h
  have hq' : q = [1, 2, 3] := by
    have : mapGet ((((newRoom "standup").add 1 2).1.add 2 2).1.add 3 2).1.queues 2
        = some [1, 2, 3] := by decide
    rw [this] at hq
    exact (Option.some.inj hq).symm
  subst hq'
  exact hsplit [1] [3] rfl

/-- C6: for a decoded intent, `processMessage` runs `Room.add` when `Cancel` is
false and `Room.remove` when it is true; it passes an event to `room.broadcast`
exactly when that call returned true, and the event is the member's name with
the priority and `Cancel` of the intent.  When the call returned false the room
is unchanged and there is no event. -/
theorem processMessage_contract (names : UserPtr → String) (room : Room) (u : UserPtr)
    (message : Message) :
    (message.Cancel = false →
      (processMessage names room u (some message)).1 = (room.add u message.Priority).1 ∧
      ((processMessage names room u (some message)).2.isSome = true ↔
        (room.add u message.Priority).2 = true)) ∧
    (message.Cancel = true →
      (processMessage names room u (some message)).1 = (room.remove u message.Priority).1 ∧
      ((processMessage names room u (some message)).2.isSome = true ↔
        (room.remove u message.Priority).2 = true)) ∧
    (∀ e, (processMessage names room u (some message)).2 = some e →
      e = { Username := names u, Priority := message.Priority, Cancel := message.Cancel }) ∧
    ((processMessage names room u (some message)).2 = none →
      (processMessage names room u (some message)).1 = room) := by
  obtain ⟨p, c⟩ := message
  cases c with
  | false =>
    rw [processMessage_join]
    refine ⟨fun _ => ⟨rfl, ?_⟩, fun h => by simp at h, ?_, ?_⟩
    · cases (room.add u p).2 <;> simp
    · intro e he
      cases hr : (room.add u p).2 <;> simp [hr] at he
      exact he.symm
    · intro hn
      cases hr : (room.add u p).2 with
      | true => simp [hr] at hn
      | false =>
        cases h : mapGet room.queues p with
        | none => simp [Room.add_of_none room u p h]
        | some q =>
          by_cases hm : u ∈ q
          · simp [Room.add_of_mem room u p q h hm]
          · simp [Room.add_of_not_mem room u p q h hm] at hr
  | true =>
    rw [processMessage_leave]
    refine ⟨fun h => by simp at h, fun _ => ⟨rfl, ?_⟩, ?_, ?_⟩
    · cases (room.remove u p).2 <;> simp
    · intro e he
      cases hr : (room.remove u p).2 <;> simp [hr] at he
      exact he.symm
    · intro hn
      cases hr : (room.remove u p).2 with
      | true => simp [hr] at hn
      | false =>
        cases h : mapGet room.queues p with
        | none => simp [Room.remove_of_none room u p h]
        | some q =>
          by_cases hm : u ∈ q
          · simp [Room.remove_of_mem room u p q h hm] at hr
          · simp [Room.remove_of_not_mem room u p q h hm]

/-- Witness of C6: `alice` (member `7`) joins priority `2` of a fresh room,
and then asks to leave priority `3`, where she is not queued. -/
theorem processMessage_contract_witness :
    (processMessage (fun _ => "alice") (newRoom "standup") 7
      (some { Priority := 2, Cancel := false })).2 =
      some { Username := "alice", Priority := 2, Cancel := false } ∧
    (processMessage (fun _ => "alice") ((newRoom "standup").add 7 2).1 7
      (some { Priority := 3, Cancel := true })).1 = ((newRoom "standup").add 7 2).1 :=
  ⟨by
      have h := (processMessage_contract (fun _ => "alice") (newRoom "standup") 7
        { Priority := 2, Cancel := false }).2.2.1
      cases hpm : (processMessage (fun _ => "alice") (newRoom "standup") 7
          (some { Priority := 2, Cancel := false })).2 with
      | none => exact absurd hpm (by decide)
      | some e => rw [h e hpm],
    (processMessage_contract (fun _ => "alice") ((newRoom "standup").add 7 2).1 7
      { Priority := 3, Cancel := true }).2.2.2 (by decide)⟩

/-- C7: in every reachable room each queue is free of duplicates: a member
occurs at most once in the queue of a priority. -/
theorem Room.queues_nodup (room : Room) (hreach : room.Reachable) (p : Nat) (q : Queue)
    (hq : mapGet room.queues p = some q) : q.Nodup ∧ ∀ m, q.count m ≤ 1 := by
  have hnd := hreach.inv.2 p q hq
  exact ⟨hnd, fun m => List.nodup_iff_count_le_one.1 hnd m⟩

/-- Witness of C7: member `7` joins priorities `1` and `3`, and `1` again. -/
theorem Room.queues_nodup_witness :
    mapGet ((((newRoom "standup").add 7 1).1.add 7 3).1.add 7 1).1.queues 1 = some [7] ∧
      ([7] : Queue).Nodup :=
  ⟨by decide,
    (Room.queues_nodup ((((newRoom "standup").add 7 1).1.add 7 3).1.add 7 1).1
      (Room.Reachable.add 7 1 (Room.Reachable.add 7 3
        (Room.Reachable.add 7 1 (Room.Reachable.newRoom "standup")))) 1 [7] (by decide)).1⟩

/-! ## The `unregister` case of `Room.run` -/

theorem Room.remove_result_eq_queued (room : Room) (user : UserPtr) (p : Nat) :
    (room.remove user p).2 = room.queued user p := by
  cases h : mapGet room.queues p with
  | none => simp [Room.remove_of_none room user p h, Room.queued, h]
  | some q =>
    by_cases hm : user ∈ q
    · simp [Room.remove_of_mem room user p q h hm, Room.queued, h, hm]
    · simp [Room.remove_of_not_mem room user p q h hm, Room.queued, h, hm]

theorem Room.queued_iff (room : Room) (user : UserPtr) (p : Nat) :
    room.queued user p = true ↔ ∃ q, mapGet room.queues p = some q ∧ user ∈ q := by
  cases h : mapGet room.queues p with
  | none => simp [Room.queued, h]
  | some q => simp [Room.queued, h]

theorem Room.cleanQueues_users (user : UserPtr) (order : List Nat) :
    ∀ (room : Room) (acc : List Nat),
      (Room.cleanQueues user order room acc).1.users = room.users := by
  induction order with
  | nil => intro room acc; rfl
  | cons p rest ih =>
    intro room acc
    simp only [Room.cleanQueues]
    rw [ih]
    exact (Room.remove_users room user p).1

theorem Room.cleanQueues_get (user : UserPtr) (order : List Nat) (hnd : order.Nodup)
    (priority : Nat) :
    ∀ (room : Room) (acc : List Nat),
      mapGet (Room.cleanQueues user order room acc).1.queues priority =
        if priority ∈ order then (mapGet room.queues priority).map (fun q => q.erase user)
        else mapGet room.queues priority := by
  induction order with
  | nil => intro room acc; simp [Room.cleanQueues]
  | cons p rest ih =>
    intro room acc
    have hp : p ∉ rest := (List.nodup_cons.1 hnd).1
    simp only [Room.cleanQueues]
    rw [ih (List.nodup_cons.1 hnd).2, Room.remove_get]
    by_cases h1 : priority = p
    · subst h1
      simp [hp]
    · simp [h1]

theorem Room.cleanQueues_list (user : UserPtr) (order : List Nat) (hnd : order.Nodup) :
    ∀ (room : Room) (acc : List Nat),
      (Room.cleanQueues user order room acc).2 =
        acc ++ order.filter (fun p => room.queued user p) := by
  induction order with
  | nil => intro room acc; simp [Room.cleanQueues]
  | cons p rest ih =>
    intro room acc
    have hp : p ∉ rest := (List.nodup_cons.1 hnd).1
    simp only [Room.cleanQueues]
    rw [ih (List.nodup_cons.1 hnd).2, Room.remove_result_eq_queued]
    have hrest : rest.filter (fun p' => (room.remove user p).1.queued user p') =
        rest.filter (fun p' => room.queued user p') := by
      apply List.filter_congr
      intro p' hp'
      have hne : p' ≠ p := fun e => hp (e ▸ hp')
      simp [Room.queued, Room.remove_get, hne]
    rw [hrest]
    cases hq : room.queued user p <;> simp [List.filter_cons, hq]

theorem Room.cleanQueues_of_absent (user : UserPtr) (order : List Nat) :
    ∀ (room : Room) (acc : List Nat),
      (∀ p q, mapGet room.queues p = some q → user ∉ q) →
      Room.cleanQueues user order room acc = (room, acc) := by
  induction order with
  | nil => intro room acc _; rfl
  | cons p rest ih =>
    intro room acc habs
    have hrem : room.remove user p = (room, false) := by
      cases h : mapGet room.queues p with
      | none => exact Room.remove_of_none room user p h
      | some q => exact Room.remove_of_not_mem room user p q h (habs p q h)
    simp only [Room.cleanQueues, hrem]
    simpa using ih room acc habs

theorem Room.Inv.order_nodup {room : Room} (hinv : room.Inv) {order : List Nat}
    (horder : order.Perm (mapKeys room.queues)) : order.Nodup := by
  rw [horder.nodup_iff, hinv.1]
  decide

theorem Room.unregister_queues (names : UserPtr → String) (order : List Nat) (room : Room)
    (user : UserPtr) :
    (Room.unregister names order room user).room.queues =
      (Room.cleanQueues user order room []).1.queues := by
  simp only [Room.unregister]
  split_ifs <;> rfl

theorem Room.unregister_absent (names : UserPtr → String) (room : Room) (hinv : room.Inv)
    (m : UserPtr) (order : List Nat) (horder : order.Perm (mapKeys room.queues)) :
    (∀ p q, mapGet (Room.unregister names order room m).room.queues p = some q → m ∉ q) ∧
      mapGet (Room.unregister names order room m).room.users m = none := by
  have hnd := hinv.order_nodup horder
  refine ⟨?_, ?_⟩
  · intro p q' hq'
    rw [Room.unregister_queues, Room.cleanQueues_get m order hnd p room []] at hq'
    cases hq : mapGet room.queues p with
    | none => simp [hq] at hq'
    | some q =>
      have hmem : p ∈ order := horder.mem_iff.2 ((mapGet_isSome_iff _ _).1 ⟨q, hq⟩)
      simp only [hq, hmem, if_true, Option.map_some', Option.some.injEq] at hq'
      subst hq'
      intro hcontra
      exact ((hinv.2 p q hq).mem_erase_iff.1 hcontra).1 rfl
  · simp only [Room.unregister]
    split_ifs with hpresent
    · exact mapGet_mapDelete_self _ _
    · cases hu : mapGet (Room.cleanQueues m order room []).1.users m with
      | none => rfl
      | some b => simp [hu] at hpresent

/-- The `unregister` case up to its final loop: in a reachable room `m` leaves
every queue and the member set, and the events the final loop is to broadcast
all carry the name of `m` with `Cancel = true`, one for each priority whose
queue held `m` and none for any other. -/
theorem Room.unregister_events (names : UserPtr → String) (room : Room)
    (hreach : room.Reachable) (m : UserPtr) (order : List Nat)
    (horder : order.Perm (mapKeys room.queues)) :
    (∀ p q, mapGet (Room.unregister names order room m).room.queues p = some q → m ∉ q) ∧
    mapGet (Room.unregister names order room m).room.users m = none ∧
    (∀ e ∈ (Room.unregister names order room m).events,
      e.Username = names m ∧ e.Cancel = true) ∧
    ((Room.unregister names order room m).events.map BroadcatedMessage.Priority).Nodup ∧
    (∀ p, p ∈ (Room.unregister names order room m).events.map BroadcatedMessage.Priority ↔
      ∃ q, mapGet room.queues p = some q ∧ m ∈ q) := by
  have hinv := hreach.inv
  have hnd := hinv.order_nodup horder
  obtain ⟨h1, h2⟩ := Room.unregister_absent names room hinv m order horder
  have hev : (Room.unregister names order room m).events.map BroadcatedMessage.Priority =
      order.filter (fun p => room.queued m p) := by
    simp only [Room.unregister, List.map_map]
    rw [Room.cleanQueues_list m order hnd]
    simp [Function.comp_def]
  refine ⟨h1, h2, ?_, ?_, ?_⟩
  · intro e he
    simp only [Room.unregister, List.mem_map] at he
    obtain ⟨p, _, rfl⟩ := he
    exact ⟨rfl, rfl⟩
  · rw [hev]
    exact hnd.filter _
  · intro p
    rw [hev, List.mem_filter, Room.queued_iff]
    constructor
    · exact fun h => h.2
    · rintro ⟨q, hq, hm⟩
      exact ⟨horder.mem_iff.2 ((mapGet_isSome_iff _ _).1 ⟨q, hq⟩), q, hq, hm⟩

/-- C10: running the `unregister` case for `m` a second time changes
nothing: the room is as the first run left it, `conn.Close()` is not called
and no event is handed to `room.broadcast`. -/
theorem Room.unregister_idempotent (names : UserPtr → String) (room : Room)
    (hreach : room.Reachable) (m : UserPtr) (order : List Nat)
    (horder : order.Perm (mapKeys room.queues)) (order2 : List Nat) :
    Room.unregister names order2 (Room.unregister names order room m).room m =
      { room := (Room.unregister names order room m).room, closed := false, events := [] } := by
  obtain ⟨h1, h2⟩ := Room.unregister_absent names room hreach.inv m order horder
  have hclean := Room.cleanQueues_of_absent m order2 (Room.unregister names order room m).room [] h1
  generalize (Room.unregister names order room m).room = r1 at *
  simp [Room.unregister, hclean, h2]

/-- Witness of C10: member `7`, queued at priorities `2` and `3` and attached,
is detached twice. -/
theorem Room.unregister_idempotent_witness :
    Room.unregister (fun _ => "alice") [4, 3, 2, 1, 0]
      (Room.unregister (fun _ => "alice") [3, 1, 0, 2, 4]
        (((((newRoom "standup").add 7 2).1.add 8 2).1.add 7 3).1.connect 7) 7).room 7 =
      { room := (Room.unregister (fun _ => "alice") [3, 1, 0, 2, 4]
          (((((newRoom "standup").add 7 2).1.add 8 2).1.add 7 3).1.connect 7) 7).room,
        closed := false, events := [] } :=
  Room.unregister_idempotent (fun _ => "alice")
    (((((newRoom "standup").add 7 2).1.add 8 2).1.add 7 3).1.connect 7)
    (Room.Reachable.connect 7 (Room.Reachable.add 7 3 (Room.Reachable.add 8 2
      (Room.Reachable.add 7 2 (Room.Reachable.newRoom "standup")))))
    7 [3, 1, 0, 2, 4] (by decide) [4, 3, 2, 1, 0]

/-! ## `Room.sendCurrentState` -/

/-- Called from `Room.run` (`accept = 0`), the loop of `Room.broadcast` parks
as soon as the order holds a live member whose channel is full. -/
theorem Room.broadcastLoop_parks (room : Room) (b : BroadcatedMessage) (order : List UserPtr) :
    ∀ (send : UserPtr → List BroadcatedMessage) (handed : List UserPtr),
      (∃ k, k ∈ order ∧ mapGet room.users k = some true ∧ maxMessageSize ≤ (send k).length) →
      (Room.broadcastLoop room b order 0 send handed).parkedOn.isSome = true := by
  induction order with
  | nil => intro send handed h; simp at h
  | cons user rest ih =>
    intro send handed h
    obtain ⟨k, hk, hlive, hfull⟩ := h
    by_cases hu : mapGet room.users user = some true
    · by_cases hfree : (send user).length < maxMessageSize
      · have hne : k ≠ user := by
          intro e
          subst e
          omega
        have hk' : k ∈ rest := by
          rcases List.mem_cons.1 hk with h1 | h1
          · exact absurd h1 hne
          · exact h1
        simp only [Room.broadcastLoop, hu, hfree, if_true]
        exact ih _ _ ⟨k, hk', hlive, by simpa [Function.update_noteq hne] using hfull⟩
      · simp [Room.broadcastLoop, hu, hfree]
    · have hne : k ≠ user := by
        intro e
        subst e
        exact hu hlive
      have hk' : k ∈ rest := by
        rcases List.mem_cons.1 hk with h1 | h1
        · exact absurd h1 hne
        · exact h1
      have hstep : Room.broadcastLoop room b (user :: rest) 0 send handed =
          Room.broadcastLoop room b rest 0 send handed := by
        cases hg : mapGet room.users user with
        | none => simp [Room.broadcastLoop, hg]
        | some flag =>
          cases flag with
          | false => simp [Room.broadcastLoop, hg]
          | true => exact absurd hg hu
      rw [hstep]
      exact ih _ _ ⟨k, hk', hlive, hfull⟩

theorem Room.broadcastLoop_step (room : Room) (b : BroadcatedMessage) (user : UserPtr)
    (rest : List UserPtr) (accept : Nat) (send : UserPtr → List BroadcatedMessage)
    (handed : List UserPtr) :
    (mapGet room.users user = some true ∧ (send user).length < maxMessageSize ∧
      Room.broadcastLoop room b (user :: rest) accept send handed =
        Room.broadcastLoop room b rest accept
          (Function.update send user (send user ++ [b])) handed) ∨
    (mapGet room.users user = some true ∧ maxMessageSize ≤ (send user).length ∧ accept = 0 ∧
      Room.broadcastLoop room b (user :: rest) accept send handed =
        { send := send, handed := handed, parkedOn := some user }) ∨
    (mapGet room.users user = some true ∧ maxMessageSize ≤ (send user).length ∧
      ∃ n, accept = n + 1 ∧
        Room.broadcastLoop room b (user :: rest) accept send handed =
          Room.broadcastLoop room b rest n send (handed ++ [user])) ∨
    (mapGet room.users user ≠ some true ∧
      Room.broadcastLoop room b (user :: rest) accept send handed =
        Room.broadcastLoop room b rest accept send handed) := by
  cases hg : mapGet room.users user with
  | none => exact Or.inr (Or.inr (Or.inr ⟨by simp, by simp [Room.broadcastLoop, hg]⟩))
  | some flag =>
    cases flag with
    | false => exact Or.inr (Or.inr (Or.inr ⟨by simp, by simp [Room.broadcastLoop, hg]⟩))
    | true =>
      by_cases hfree : (send user).length < maxMessageSize
      · exact Or.inl ⟨rfl, hfree, by simp [Room.broadcastLoop, hg, hfree]⟩
      · cases accept with
        | zero =>
          exact Or.inr (Or.inl ⟨rfl, Nat.le_of_not_lt hfree, rfl,
            by simp [Room.broadcastLoop, hg, hfree]⟩)
        | succ n =>
          exact Or.inr (Or.inr (Or.inl ⟨rfl, Nat.le_of_not_lt hfree, n, rfl,
            by simp [Room.broadcastLoop, hg, hfree]⟩))

/-- The loop of `Room.broadcast` writes only to the channels of the members it
visits, and only to those whose flag is true. -/
theorem Room.broadcastLoop_frame (room : Room) (b : BroadcatedMessage) (order : List UserPtr)
    (v : UserPtr) (hv : v ∉ order ∨ mapGet room.users v ≠ some true) :
    ∀ (accept : Nat) (send : UserPtr → List BroadcatedMessage) (handed : List UserPtr),
      (Room.broadcastLoop room b order accept send handed).send v = send v := by
  induction order with
  | nil => intro accept send handed; rfl
  | cons user rest ih =>
    intro accept send handed
    have hv' : v ∉ rest ∨ mapGet room.users v ≠ some true := by
      rcases hv with h | h
      · exact Or.inl (fun hmem => h (List.mem_cons_of_mem _ hmem))
      · exact Or.inr h
    rcases Room.broadcastLoop_step room b user rest accept send handed with
      ⟨hlive, _, heq⟩ | ⟨_, _, _, heq⟩ | ⟨_, _, n, _, heq⟩ | ⟨_, heq⟩
    · have hne : v ≠ user := by
        rintro rfl
        rcases hv with h | h
        · exact h (List.mem_cons_self _ _)
        · exact h hlive
      rw [heq, ih hv', Function.update_noteq hne]
    · rw [heq]
    · rw [heq, ih hv']
    · rw [heq, ih hv']

theorem Room.broadcastLoop_handed (room : Room) (b : BroadcatedMessage) (order : List UserPtr)
    (x : UserPtr) :
    ∀ (accept : Nat) (send : UserPtr → List BroadcatedMessage) (handed : List UserPtr),
      x ∈ handed → x ∈ (Room.broadcastLoop room b order accept send handed).handed := by
  induction order with
  | nil => intro accept send handed hx; exact hx
  | cons user rest ih =>
    intro accept send handed hx
    rcases Room.broadcastLoop_step room b user rest accept send handed with
      ⟨_, _, heq⟩ | ⟨_, _, _, heq⟩ | ⟨_, _, n, _, heq⟩ | ⟨_, heq⟩
    · rw [heq]; exact ih _ _ _ hx
    · rw [heq]; exact hx
    · rw [heq]; exact ih _ _ _ (List.mem_append_left _ hx)
    · rw [heq]; exact ih _ _ _ hx

/-- What `Room.broadcast` has done when it returns: every live member with a
free slot has the event appended once, every live member with a full channel
is untouched and handed to `room.unregister`, and no other channel changes. -/
theorem Room.broadcastLoop_returns (room : Room) (b : BroadcatedMessage) (order : List UserPtr)
    (hnd : order.Nodup) :
    ∀ (accept : Nat) (send : UserPtr → List BroadcatedMessage) (handed : List UserPtr),
      (Room.broadcastLoop room b order accept send handed).parkedOn = none →
      ∀ v, v ∈ order → mapGet room.users v = some true →
        ((send v).length < maxMessageSize →
          (Room.broadcastLoop room b order accept send handed).send v = send v ++ [b]) ∧
        (maxMessageSize ≤ (send v).length →
          (Room.broadcastLoop room b order accept send handed).send v = send v ∧
          v ∈ (Room.broadcastLoop room b order accept send handed).handed) := by
  induction order with
  | nil => intro accept send handed _ v hv; simp at hv
  | cons user rest ih =>
    intro accept send handed hret v hv hlive
    have hrest := (List.nodup_cons.1 hnd).2
    have huser : user ∉ rest := (List.nodup_cons.1 hnd).1
    rcases Room.broadcastLoop_step room b user rest accept send handed with
      ⟨_, hfree, heq⟩ | ⟨_, _, _, heq⟩ | ⟨_, hfull, n, _, heq⟩ | ⟨hdead, heq⟩
    · rw [heq] at hret ⊢
      by_cases hvu : v = user
      · subst hvu
        refine ⟨fun _ => ?_, fun hfull => absurd hfree (Nat.not_lt.2 hfull)⟩
        rw [Room.broadcastLoop_frame room b rest v (Or.inl huser)]
        simp
      · have hvr : v ∈ rest := by
          rcases List.mem_cons.1 hv with h | h
          · exact absurd h hvu
          · exact h
        have := ih hrest accept _ handed hret v hvr hlive
        simpa [Function.update_noteq hvu] using this
    · rw [heq] at hret
      simp at hret
    · rw [heq] at hret ⊢
      by_cases hvu : v = user
      · subst hvu
        refine ⟨fun hfree => absurd hfree (Nat.not_lt.2 hfull), fun _ => ⟨?_, ?_⟩⟩
        · exact Room.broadcastLoop_frame room b rest v (Or.inl huser) _ _ _
        · exact Room.broadcastLoop_handed room b rest v _ _ _ (by simp)
      · have hvr : v ∈ rest := by
          rcases List.mem_cons.1 hv with h | h
          · exact absurd h hvu
          · exact h
        exact ih hrest n send _ hret v hvr hlive
    · rw [heq] at hret ⊢
      have hvu : v ≠ user := by
        rintro rfl
        exact hdead hlive
      have hvr : v ∈ rest := by
        rcases List.mem_cons.1 hv with h | h
        · exact absurd h hvu
        · exact h
      exact ih hrest accept send handed hret v hvr hlive

/-- Inside `Room.run` the final loop of the `unregister` case parks in its
first call of `room.broadcast` whenever a live member visited by that call has
a full channel: only the first event is passed to `room.broadcast`. -/
theorem Room.broadcastAll_parks (room : Room) (userOrder : Nat → List UserPtr)
    (b : BroadcatedMessage) (rest : List BroadcatedMessage) (i : Nat)
    (send : UserPtr → List BroadcatedMessage) (issued : List BroadcatedMessage)
    (h : ∃ k, k ∈ userOrder i ∧ mapGet room.users k = some true ∧
      maxMessageSize ≤ (send k).length) :
    (Room.broadcastAll room userOrder (b :: rest) i send issued).parkedOn.isSome = true ∧
    (Room.broadcastAll room userOrder (b :: rest) i send issued).issued = issued ++ [b] := by
  have hpark := Room.broadcastLoop_parks room b (userOrder i) send [] h
  simp only [Room.broadcastAll, Room.broadcast]
  cases hres : (Room.broadcastLoop room b (userOrder i) 0 send []).parkedOn with
  | none => simp [hres] at hpark
  | some user => simp

/-- A call of `Room.broadcast` that meets no live member with a full channel
returns, hands nobody to `room.unregister`, and adds at most one value to any
channel. -/
theorem Room.broadcastLoop_free (room : Room) (b : BroadcatedMessage) (order : List UserPtr)
    (hnd : order.Nodup) :
    ∀ (accept : Nat) (send : UserPtr → List BroadcatedMessage) (handed : List UserPtr),
      (∀ k, k ∈ order → mapGet room.users k = some true →
        (send k).length < maxMessageSize) →
      (Room.broadcastLoop room b order accept send handed).parkedOn = none ∧
      (Room.broadcastLoop room b order accept send handed).handed = handed ∧
      ∀ v, ((Room.broadcastLoop room b order accept send handed).send v).length ≤
        (send v).length + 1 := by
  induction order with
  | nil => intro accept send handed _; simp [Room.broadcastLoop]
  | cons user rest ih =>
    intro accept send handed hfree
    have hrest := (List.nodup_cons.1 hnd).2
    have huser : user ∉ rest := (List.nodup_cons.1 hnd).1
    have hfree' : ∀ k, k ∈ rest → mapGet room.users k = some true →
        (send k).length < maxMessageSize :=
      fun k hk hl => hfree k (List.mem_cons_of_mem _ hk) hl
    rcases Room.broadcastLoop_step room b user rest accept send handed with
      ⟨_, _, heq⟩ | ⟨hlive, hfull, _, _⟩ | ⟨hlive, hfull, _, _, _⟩ | ⟨_, heq⟩
    · rw [heq]
      have hupd : ∀ k, k ∈ rest → mapGet room.users k = some true →
          ((Function.update send user (send user ++ [b])) k).length < maxMessageSize := by
        intro k hk hl
        have hne : k ≠ user := fun e => huser (e ▸ hk)
        rw [Function.update_noteq hne]
        exact hfree' k hk hl
      obtain ⟨h1, h2, h3⟩ := ih hrest accept _ handed hupd
      refine ⟨h1, h2, ?_⟩
      intro v
      by_cases hv : v = user
      · subst hv
        rw [Room.broadcastLoop_frame room b rest v (Or.inl huser)]
        simp
      · have := h3 v
        rwa [Function.update_noteq hv] at this
    · exact absurd (hfree user (List.mem_cons_self _ _) hlive) (Nat.not_lt.2 hfull)
    · exact absurd (hfree user (List.mem_cons_self _ _) hlive) (Nat.not_lt.2 hfull)
    · rw [heq]
      exact ih hrest accept send handed hfree'

/-- The final loop of the `unregister` case passes every event to
`room.broadcast` and returns when the channel of every live member has room
for all of them. -/
theorem Room.broadcastAll_returns (room : Room) (userOrder : Nat → List UserPtr)
    (hnd : ∀ i, (userOrder i).Nodup) (events : List BroadcatedMessage) :
    ∀ (i : Nat) (send : UserPtr → List BroadcatedMessage) (issued : List BroadcatedMessage),
      (∀ k, mapGet room.users k = some true →
        (send k).length + events.length ≤ maxMessageSize) →
      (Room.broadcastAll room userOrder events i send issued).parkedOn = none ∧
      (Room.broadcastAll room userOrder events i send issued).issued = issued ++ events := by
  induction events with
  | nil => intro i send issued _; simp [Room.broadcastAll]
  | cons b rest ih =>
    intro i send issued hroom
    obtain ⟨h1, _, h3⟩ := Room.broadcastLoop_free room b (userOrder i) (hnd i) 0 send []
      (fun k _ hl => by
        have := hroom k hl
        simp only [List.length_cons] at this
        omega)
    simp only [Room.broadcastAll, Room.broadcast, h1]
    have hnext : ∀ k, mapGet room.users k = some true →
        ((Room.broadcastLoop room b (userOrder i) 0 send []).send k).length + rest.length ≤
          maxMessageSize := by
      intro k hl
      have h := hroom k hl
      have hk := h3 k
      simp only [List.length_cons] at h
      omega
    obtain ⟨r1, r2⟩ := ih (i + 1) _ (issued ++ [b]) hnext
    exact ⟨r1, by rw [r2]; simp⟩

/-- C3, the code at a failing input.  Members `1` ("kim"), `2` ("bob") and
`3` ("alice") are live, `alice` is queued at priorities `2` and `3`, and the
channel of `kim` holds `maxMessageSize` values.  The `unregister` case of
`Room.run` for `alice` collects the two priorities, but its final loop parks in
the call of `room.broadcast` for priority `2`: the cancel event of priority `3`
is never passed to `room.broadcast`, and `bob` gets no cancel event. -/
theorem Room.unregister_parks_before_all_cancels :
    mapGet ((((((newRoom "standup").add 3 2).1.add 3 3).1.connect 1).connect 2).connect 3).queues 2
      = some [3] ∧
    mapGet ((((((newRoom "standup").add 3 2).1.add 3 3).1.connect 1).connect 2).connect 3).queues 3
      = some [3] ∧
    (Room.runUnregister (fun u => if u = 1 then "kim" else if u = 2 then "bob" else "alice")
      [0, 1, 2, 3, 4] (fun _ => [1, 2])
      { room := ((((((newRoom "standup").add 3 2).1.add 3 3).1.connect 1).connect 2).connect 3)
        send := fun u => if u = 1 then
          List.replicate maxMessageSize { Username := "bob", Priority := 0, Cancel := false }
          else [] } 3).1.events =
      [{ Username := "alice", Priority := 2, Cancel := true },
        { Username := "alice", Priority := 3, Cancel := true }] ∧
    (Room.runUnregister (fun u => if u = 1 then "kim" else if u = 2 then "bob" else "alice")
      [0, 1, 2, 3, 4] (fun _ => [1, 2])
      { room := ((((((newRoom "standup").add 3 2).1.add 3 3).1.connect 1).connect 2).connect 3)
        send := fun u => if u = 1 then
          List.replicate maxMessageSize { Username := "bob", Priority := 0, Cancel := false }
          else [] } 3).2.issued =
      [{ Username := "alice", Priority := 2, Cancel := true }] ∧
    (Room.runUnregister (fun u => if u = 1 then "kim" else if u = 2 then "bob" else "alice")
      [0, 1, 2, 3, 4] (fun _ => [1, 2])
      { room := ((((((newRoom "standup").add 3 2).1.add 3 3).1.connect 1).connect 2).connect 3)
        send := fun u => if u = 1 then
          List.replicate maxMessageSize { Username := "bob", Priority := 0, Cancel := false }
          else [] } 3).2.parkedOn = some 1 ∧
    (Room.runUnregister (fun u => if u = 1 then "kim" else if u = 2 then "bob" else "alice")
      [0, 1, 2, 3, 4] (fun _ => [1, 2])
      { room := ((((((newRoom "standup").add 3 2).1.add 3 3).1.connect 1).connect 2).connect 3)
        send := fun u => if u = 1 then
          List.replicate maxMessageSize { Username := "bob", Priority := 0, Cancel := false }
          else [] } 3).2.send 2 = [] := by
  refine ⟨by decide, by decide, by rfl, ?_, ?_, ?_⟩
  · simp [Room.runUnregister, Room.unregister, Room.cleanQueues, Room.remove, Room.add,
      Room.connect, newRoom_queues, mapGet, mapSet, mapDelete, Queue.firstIndex, Queue.contains,
      Room.broadcastAll, Room.broadcast, Room.broadcastLoop, newRoom]
  · simp [Room.runUnregister, Room.unregister, Room.cleanQueues, Room.remove, Room.add,
      Room.connect, newRoom_queues, mapGet, mapSet, mapDelete, Queue.firstIndex, Queue.contains,
      Room.broadcastAll, Room.broadcast, Room.broadcastLoop, newRoom]
  · simp [Room.runUnregister, Room.unregister, Room.cleanQueues, Room.remove, Room.add,
      Room.connect, newRoom_queues, mapGet, mapSet, mapDelete, Queue.firstIndex, Queue.contains,
      Room.broadcastAll, Room.broadcast, Room.broadcastLoop, newRoom]

/-- C5, the code at a failing input.  Members `1` ("kim"), `2` ("bob") and
`3` ("alice") are live, `alice` is queued at priority `2`, and the channel of
`kim` holds `maxMessageSize` pending messages.  The `unregister` case of
`Room.run` for `alice` hands one event to `room.broadcast`; that call reaches
the hand-off `room.unregister <- kim` inside the only goroutine that receives
from `room.unregister`, and parks there: `bob`, whose channel is empty, gets
nothing. -/
theorem Room.broadcast_parks_on_saturated :
    (Room.runUnregister (fun u => if u = 1 then "kim" else if u = 2 then "bob" else "alice")
      [0, 1, 2, 3, 4] (fun _ => [1, 2])
      { room := (((((newRoom "standup").add 3 2).1.connect 1).connect 2).connect 3)
        send := fun u => if u = 1 then
          List.replicate maxMessageSize { Username := "bob", Priority := 0, Cancel := false }
          else [] } 3).1.events = [{ Username := "alice", Priority := 2, Cancel := true }] ∧
    (Room.runUnregister (fun u => if u = 1 then "kim" else if u = 2 then "bob" else "alice")
      [0, 1, 2, 3, 4] (fun _ => [1, 2])
      { room := (((((newRoom "standup").add 3 2).1.connect 1).connect 2).connect 3)
        send := fun u => if u = 1 then
          List.replicate maxMessageSize { Username := "bob", Priority := 0, Cancel := false }
          else [] } 3).2.parkedOn = some 1 ∧
    (Room.runUnregister (fun u => if u = 1 then "kim" else if u = 2 then "bob" else "alice")
      [0, 1, 2, 3, 4] (fun _ => [1, 2])
      { room := (((((newRoom "standup").add 3 2).1.connect 1).connect 2).connect 3)
        send := fun u => if u = 1 then
          List.replicate maxMessageSize { Username := "bob", Priority := 0, Cancel := false }
          else [] } 3).2.send 2 = [] := by
  refine ⟨by rfl, ?_, ?_⟩
  · simp [Room.runUnregister, Room.unregister, Room.cleanQueues, Room.remove, Room.add,
      Room.connect, newRoom_queues, mapGet, mapSet, mapDelete, Queue.firstIndex, Queue.contains,
      Room.broadcastAll, Room.broadcast, Room.broadcastLoop, newRoom]
  · simp [Room.runUnregister, Room.unregister, Room.cleanQueues, Room.remove, Room.add,
      Room.connect, newRoom_queues, mapGet, mapSet, mapDelete, Queue.firstIndex, Queue.contains,
      Room.broadcastAll, Room.broadcast, Room.broadcastLoop, newRoom]

/-! ## The registry: `serveAuth`, `serveWs`, and detached members -/

theorem roomStorage.isMember_eq_false_iff (s : roomStorage) (m : UserPtr) :
    s.isMember m = false ↔
      ∀ u, s.heap[m]? = some u → ∀ room, mapGet s.rooms u.room = some room →
        mapGet room.users m = none := by
  cases hu : s.heap[m]? with
  | none => simp [roomStorage.isMember, hu]
  | some u =>
    cases hr : mapGet s.rooms u.room with
    | none => simp [roomStorage.isMember, hu, hr]
    | some room =>
      cases hm : mapGet room.users m <;> simp [roomStorage.isMember, hu, hr, hm]

theorem Room.unregister_users (names : UserPtr → String) (order : List Nat) (room : Room)
    (user m : UserPtr) (h : mapGet room.users m = none) :
    mapGet (Room.unregister names order room user).room.users m = none := by
  have hc := Room.cleanQueues_users user order room []
  simp only [Room.unregister]
  split_ifs
  · by_cases hum : user = m
    · subst hum
      exact mapGet_mapDelete_self _ _
    · simp only [mapGet_mapDelete_ne _ hum, hc, h]
  · rw [hc, h]

theorem Room.unregister_users_self (names : UserPtr → String) (order : List Nat) (room : Room)
    (m : UserPtr) : mapGet (Room.unregister names order room m).room.users m = none := by
  simp only [Room.unregister]
  split_ifs with hpresent
  · exact mapGet_mapDelete_self _ _
  · cases hu : mapGet (Room.cleanQueues m order room []).1.users m with
    | none => rfl
    | some b => simp [hu] at hpresent

theorem processMessage_users (names : UserPtr → String) (room : Room) (user : UserPtr)
    (decoded : Option Message) : (processMessage names room user decoded).1.users = room.users := by
  cases decoded with
  | none => rfl
  | some message =>
    obtain ⟨p, c⟩ := message
    cases c with
    | false =>
      rw [processMessage_join]
      exact (Room.add_users room user p).1
    | true =>
      rw [processMessage_leave]
      exact (Room.remove_users room user p).1

theorem roomStorage.onRoom_eq (s : roomStorage) (user : UserPtr) (f : Room → Room) (u0 : User)
    (room0 : Room) (hu : s.heap[user]? = some u0) (hr : mapGet s.rooms u0.room = some room0) :
    s.onRoom user f = { s with rooms := mapSet s.rooms u0.room (f room0) } := by
  simp [roomStorage.onRoom, hu, hr]

theorem roomStorage.onRoom_eq_self (s : roomStorage) (user : UserPtr) (f : Room → Room)
    (h : s.heap[user]? = none ∨ ∃ u0, s.heap[user]? = some u0 ∧ mapGet s.rooms u0.room = none) :
    s.onRoom user f = s := by
  rcases h with hu | ⟨u0, hu, hr⟩
  · simp [roomStorage.onRoom, hu]
  · simp [roomStorage.onRoom, hu, hr]

theorem roomStorage.onRoom_cases (s : roomStorage) (user : UserPtr) (f : Room → Room) :
    s.onRoom user f = s ∨ ∃ u0 room0, s.heap[user]? = some u0 ∧
      mapGet s.rooms u0.room = some room0 ∧
      s.onRoom user f = { s with rooms := mapSet s.rooms u0.room (f room0) } := by
  cases hu : s.heap[user]? with
  | none => exact Or.inl (roomStorage.onRoom_eq_self s user f (Or.inl hu))
  | some u0 =>
    cases hr : mapGet s.rooms u0.room with
    | none => exact Or.inl (roomStorage.onRoom_eq_self s user f (Or.inr ⟨u0, hu, hr⟩))
    | some room0 => exact Or.inr ⟨u0, room0, rfl, hr, roomStorage.onRoom_eq s user f u0 room0 hu hr⟩

theorem User.connect_cases (s : roomStorage) (user : UserPtr) (conn : Nat) :
    User.connect s user conn = s ∨ ∃ u0 room0, s.heap[user]? = some u0 ∧
      mapGet s.rooms u0.room = some room0 ∧
      User.connect s user conn =
        { s with heap := s.heap.set user { u0 with conn := some conn },
                 rooms := mapSet s.rooms u0.room (room0.connect user) } := by
  cases hu : s.heap[user]? with
  | none => exact Or.inl (by simp [User.connect, hu])
  | some u0 =>
    cases hr : mapGet s.rooms u0.room with
    | none => exact Or.inl (by simp [User.connect, hu, hr])
    | some room0 => exact Or.inr ⟨u0, room0, rfl, hr, by simp [User.connect, hu, hr]⟩

/-- Running on `user.room` an operation that keeps `m` out of the member set
keeps `m` out of it. -/
theorem roomStorage.onRoom_absent (s : roomStorage) (user m : UserPtr) (f : Room → Room)
    (hf : ∀ room, mapGet room.users m = none → mapGet (f room).users m = none)
    (h : s.isMember m = false) : (s.onRoom user f).isMember m = false := by
  rcases roomStorage.onRoom_cases s user f with hs | ⟨u0, room0, hu, hr, hs⟩
  · rw [hs]; exact h
  · rw [hs]
    rw [roomStorage.isMember_eq_false_iff] at h ⊢
    intro u hmu room hroom
    simp only at hmu hroom
    by_cases hsame : u0.room = u.room
    · rw [hsame, mapGet_mapSet_self] at hroom
      cases hroom
      exact hf room0 (h u hmu room0 (hsame ▸ hr))
    · rw [mapGet_mapSet_ne _ _ hsame] at hroom
      exact h u hmu room hroom

theorem roomStorage.getOrCreateRoom_cases (s : roomStorage) (name : String) :
    (s.getOrCreateRoom name).1.heap = s.heap ∧ (s.getOrCreateRoom name).1.users = s.users ∧
    ((∃ room, mapGet s.rooms name = some room ∧ s.getOrCreateRoom name = (s, room)) ∨
      (mapGet s.rooms name = none ∧
        s.getOrCreateRoom name =
          ({ s with rooms := mapSet s.rooms name (newRoom name) }, newRoom name))) := by
  cases hr : mapGet s.rooms name with
  | none => simp [roomStorage.getOrCreateRoom, hr]
  | some room => simp [roomStorage.getOrCreateRoom, hr]

theorem roomStorage.getOrCreateRoom_absent (s : roomStorage) (name : String) (m : UserPtr)
    (h : s.isMember m = false) : (s.getOrCreateRoom name).1.isMember m = false := by
  obtain ⟨_, _, hc⟩ := roomStorage.getOrCreateRoom_cases s name
  rcases hc with ⟨room, _, hs⟩ | ⟨hnone, hs⟩
  · rw [hs]; exact h
  · rw [hs]
    rw [roomStorage.isMember_eq_false_iff] at h ⊢
    intro u hmu room hroom
    simp only at hmu hroom
    by_cases hsame : name = u.room
    · rw [hsame, mapGet_mapSet_self] at hroom
      cases hroom
      rfl
    · rw [mapGet_mapSet_ne _ _ hsame] at hroom
      exact h u hmu room hroom

/-- Allocating a user and writing the token table keeps an allocated `m` out
of the member set. -/
theorem roomStorage.alloc_absent (s : roomStorage) (m : UserPtr) (hm : m < s.heap.length)
    (users : List (String × UserPtr)) (made : User) (h : s.isMember m = false) :
    roomStorage.isMember { s with users := users, heap := s.heap ++ [made] } m = false := by
  rw [roomStorage.isMember_eq_false_iff] at h ⊢
  intro u hmu room hroom
  simp only at hmu hroom
  rw [List.getElem?_append_left hm] at hmu
  exact h u hmu room hroom

theorem roomStorage.serveAuth_storage (s : roomStorage) (req : AuthRequest) (token : String)
    (hok : ¬ (req.RoomName = "" ∨ req.UserName = "")) :
    (s.serveAuth (some req) token).1 =
      { (s.getOrCreateRoom req.RoomName).1 with
        users := mapSet (s.getOrCreateRoom req.RoomName).1.users token
          (s.getOrCreateRoom req.RoomName).1.heap.length,
        heap := (s.getOrCreateRoom req.RoomName).1.heap ++
          [{ name := req.UserName, room := req.RoomName, conn := none }] } := by
  simp only [roomStorage.serveAuth, hok, if_false]

theorem roomStorage.serveAuth_absent (s : roomStorage) (m : UserPtr) (hm : m < s.heap.length)
    (decoded : Option AuthRequest) (token : String) (h : s.isMember m = false) :
    (s.serveAuth decoded token).1.isMember m = false ∧
      m < (s.serveAuth decoded token).1.heap.length := by
  cases decoded with
  | none => exact ⟨by simpa [roomStorage.serveAuth] using h, by simpa [roomStorage.serveAuth] using hm⟩
  | some req =>
    by_cases hbad : req.RoomName = "" ∨ req.UserName = ""
    · simp only [roomStorage.serveAuth, hbad, if_true]
      exact ⟨h, hm⟩
    · have hheap := (roomStorage.getOrCreateRoom_cases s req.RoomName).1
      rw [roomStorage.serveAuth_storage s req token hbad]
      refine ⟨roomStorage.alloc_absent _ m (by rw [hheap]; exact hm) _ _
        (roomStorage.getOrCreateRoom_absent s req.RoomName m h), ?_⟩
      show m < ((s.getOrCreateRoom req.RoomName).1.heap ++
        [({ name := req.UserName, room := req.RoomName, conn := none } : User)]).length
      rw [List.length_append, hheap]
      exact Nat.lt_add_right _ hm

theorem User.connect_absent (s : roomStorage) (user m : UserPtr) (conn : Nat) (hne : user ≠ m)
    (h : s.isMember m = false) : (User.connect s user conn).isMember m = false := by
  rcases User.connect_cases s user conn with hs | ⟨u0, room0, hu, hr, hs⟩
  · rw [hs]; exact h
  · rw [hs]
    rw [roomStorage.isMember_eq_false_iff] at h ⊢
    intro u hmu room hroom
    simp only at hmu hroom
    rw [List.getElem?_set_ne hne] at hmu
    by_cases hsame : u0.room = u.room
    · rw [hsame, mapGet_mapSet_self] at hroom
      cases hroom
      simp only [Room.connect, mapGet_mapSet_ne _ _ hne]
      exact h u hmu room0 (hsame ▸ hr)
    · rw [mapGet_mapSet_ne _ _ hsame] at hroom
      exact h u hmu room hroom

theorem User.connect_heap_length (s : roomStorage) (user : UserPtr) (conn : Nat) :
    (User.connect s user conn).heap.length = s.heap.length := by
  rcases User.connect_cases s user conn with hs | ⟨u0, room0, hu, hr, hs⟩
  · rw [hs]
  · rw [hs]; simp

theorem roomStorage.onRoom_heap (s : roomStorage) (user : UserPtr) (f : Room → Room) :
    (s.onRoom user f).heap = s.heap := by
  rcases roomStorage.onRoom_cases s user f with hs | ⟨u0, room0, hu, hr, hs⟩
  · rw [hs]
  · rw [hs]

theorem roomStorage.serveWs_storage (s : roomStorage) (token : String) (upgrade : Option Nat)
    (order : List Nat) (send : UserPtr → List BroadcatedMessage) :
    (s.serveWs token upgrade order send).1 =
      match mapGet s.users token, upgrade with
      | some user, some conn => User.connect s user conn
      | _, _ => s := by
  cases ht : mapGet s.users token with
  | none => simp [roomStorage.serveWs, ht]
  | some user =>
    cases upgrade with
    | none => simp [roomStorage.serveWs, ht]
    | some conn =>
      simp only [roomStorage.serveWs, ht]
      split <;> rfl

/-- One action that does not redeem a token of `m` keeps `m` out of the member
set. -/
theorem roomStorage.step_absent (s : roomStorage) (m : UserPtr) (hm : m < s.heap.length)
    (a : Action) (hred : s.redeems m a = false) (h : s.isMember m = false) :
    (s.step a).isMember m = false ∧ m < (s.step a).heap.length := by
  cases a with
  | serveAuth decoded token => exact roomStorage.serveAuth_absent s m hm decoded token h
  | serveWs token upgrade =>
    simp only [roomStorage.step, roomStorage.serveWs_storage]
    cases ht : mapGet s.users token with
    | none => exact ⟨h, hm⟩
    | some user =>
      cases upgrade with
      | none => exact ⟨h, hm⟩
      | some conn =>
        have hne : user ≠ m := by
          intro e
          simp [roomStorage.redeems, ht, e] at hred
        exact ⟨User.connect_absent s user m conn hne h, by
          simpa [User.connect_heap_length] using hm⟩
  | processMessage user decoded =>
    refine ⟨roomStorage.onRoom_absent s user m _ ?_ h, by
      simpa [roomStorage.step, roomStorage.onRoom_heap] using hm⟩
    intro room hroom
    rw [processMessage_users]
    exact hroom
  | unregister user order =>
    refine ⟨roomStorage.onRoom_absent s user m _ ?_ h, by
      simpa [roomStorage.step, roomStorage.onRoom_heap] using hm⟩
    intro room hroom
    exact Room.unregister_users s.names order room user m hroom

theorem roomStorage.run_absent (m : UserPtr) (actions : List Action) :
    ∀ s : roomStorage, m < s.heap.length → roomStorage.neverRedeems m s actions = true →
      s.isMember m = false → (s.run actions).isMember m = false ∧
        m < (s.run actions).heap.length := by
  induction actions with
  | nil => intro s hm _ h; exact ⟨by simpa [roomStorage.run] using h, by simpa [roomStorage.run] using hm⟩
  | cons a rest ih =>
    intro s hm hnever h
    simp only [roomStorage.neverRedeems, Bool.and_eq_true, Bool.not_eq_true'] at hnever
    obtain ⟨hred, hrest⟩ := hnever
    obtain ⟨h1, h2⟩ := roomStorage.step_absent s m hm a hred h
    simpa [roomStorage.run] using ih (s.step a) h2 hrest h1

theorem roomStorage.unregister_isMember (s : roomStorage) (m : UserPtr) (order : List Nat) :
    (s.step (Action.unregister m order)).isMember m = false := by
  simp only [roomStorage.step]
  rcases roomStorage.onRoom_cases s m
    (fun room => (Room.unregister s.names order room m).room) with hs | ⟨u0, room0, hu, hr, hs⟩
  · rw [hs]
    cases hu : s.heap[m]? with
    | none => simp [roomStorage.isMember, hu]
    | some u0 =>
      cases hr : mapGet s.rooms u0.room with
      | none => simp [roomStorage.isMember, hu, hr]
      | some room0 =>
        rw [roomStorage.onRoom_eq s m _ u0 room0 hu hr] at hs
        have := congrArg (fun t => mapGet t.rooms u0.room) hs
        simp only [mapGet_mapSet_self, hr, Option.some.injEq] at this
        have hnone := Room.unregister_users_self s.names order room0 m
        rw [this] at hnone
        simp [roomStorage.isMember, hu, hr, hnone]
  · rw [hs, roomStorage.isMember_eq_false_iff]
    intro u hmu room hroom
    simp only [hu, Option.some.injEq] at hmu
    subst hmu
    simp only [mapGet_mapSet_self, Option.some.injEq] at hroom
    subst hroom
    exact Room.unregister_users_self s.names order room0 m

theorem mapGet_mapSet_isSome {κ α : Type} [DecidableEq κ] (m : List (κ × α)) (k k' : κ)
    (v : α) (h : (mapGet m k').isSome = true) : (mapGet (mapSet m k v) k').isSome = true := by
  by_cases hk : k = k'
  · subst hk
    simp [mapGet_mapSet_self]
  · rw [mapGet_mapSet_ne _ _ hk]
    exact h

theorem roomStorage.wellFormed_iff (s : roomStorage) :
    s.wellFormed = true ↔ ∀ u, u ∈ s.heap → (mapGet s.rooms u.room).isSome = true := by
  simp [roomStorage.wellFormed, List.all_eq_true]

theorem roomStorage.getOrCreateRoom_wellFormed (s : roomStorage) (name : String)
    (h : s.wellFormed = true) :
    (s.getOrCreateRoom name).1.wellFormed = true ∧
      (mapGet (s.getOrCreateRoom name).1.rooms name).isSome = true := by
  rw [roomStorage.wellFormed_iff] at h
  obtain ⟨_, _, hc⟩ := roomStorage.getOrCreateRoom_cases s name
  rcases hc with ⟨room, hr, hs⟩ | ⟨_, hs⟩
  · rw [hs]
    exact ⟨(roomStorage.wellFormed_iff s).2 h, by simp [hr]⟩
  · rw [hs]
    refine ⟨(roomStorage.wellFormed_iff _).2 ?_, by simp [mapGet_mapSet_self]⟩
    intro u hu
    exact mapGet_mapSet_isSome _ _ _ _ (h u hu)

theorem roomStorage.serveAuth_wellFormed (s : roomStorage) (decoded : Option AuthRequest)
    (token : String) (h : s.wellFormed = true) :
    (s.serveAuth decoded token).1.wellFormed = true := by
  cases decoded with
  | none => simpa [roomStorage.serveAuth] using h
  | some req =>
    by_cases hbad : req.RoomName = "" ∨ req.UserName = ""
    · simpa [roomStorage.serveAuth, hbad] using h
    · obtain ⟨h1, h2⟩ := roomStorage.getOrCreateRoom_wellFormed s req.RoomName h
      rw [roomStorage.serveAuth_storage s req token hbad, roomStorage.wellFormed_iff]
      rw [roomStorage.wellFormed_iff] at h1
      intro u hu
      rcases List.mem_append.1 hu with hu | hu
      · exact h1 u hu
      · rw [List.mem_singleton] at hu
        subst hu
        exact h2

theorem User.connect_wellFormed (s : roomStorage) (user : UserPtr) (conn : Nat)
    (h : s.wellFormed = true) : (User.connect s user conn).wellFormed = true := by
  rcases User.connect_cases s user conn with hs | ⟨u0, room0, hu, hr, hs⟩
  · rw [hs]; exact h
  · rw [hs, roomStorage.wellFormed_iff]
    rw [roomStorage.wellFormed_iff] at h
    intro u hmem
    rcases List.mem_or_eq_of_mem_set hmem with hmem | rfl
    · exact mapGet_mapSet_isSome _ _ _ _ (h u hmem)
    · simp [mapGet_mapSet_self]

theorem roomStorage.onRoom_wellFormed (s : roomStorage) (user : UserPtr) (f : Room → Room)
    (h : s.wellFormed = true) : (s.onRoom user f).wellFormed = true := by
  rcases roomStorage.onRoom_cases s user f with hs | ⟨u0, room0, hu, hr, hs⟩
  · rw [hs]; exact h
  · rw [hs, roomStorage.wellFormed_iff]
    rw [roomStorage.wellFormed_iff] at h
    intro u hmem
    exact mapGet_mapSet_isSome _ _ _ _ (h u hmem)

theorem roomStorage.step_wellFormed (s : roomStorage) (a : Action) (h : s.wellFormed = true) :
    (s.step a).wellFormed = true := by
  cases a with
  | serveAuth decoded token => exact roomStorage.serveAuth_wellFormed s decoded token h
  | serveWs token upgrade =>
    simp only [roomStorage.step, roomStorage.serveWs_storage]
    cases ht : mapGet s.users token with
    | none => exact h
    | some user =>
      cases upgrade with
      | none => exact h
      | some conn => exact User.connect_wellFormed s user conn h
  | processMessage user decoded => exact roomStorage.onRoom_wellFormed s user _ h
  | unregister user order => exact roomStorage.onRoom_wellFormed s user _ h

theorem roomStorage.run_wellFormed (actions : List Action) :
    ∀ s : roomStorage, s.wellFormed = true → (s.run actions).wellFormed = true := by
  induction actions with
  | nil => intro s h; simpa [roomStorage.run] using h
  | cons a rest ih =>
    intro s h
    simpa [roomStorage.run] using ih (s.step a) (roomStorage.step_wellFormed s a h)

/-- Every storage the program can reach is well formed. -/
theorem roomStorage.reachable_wellFormed (history : List Action) :
    (newRoomStorage.run history).wellFormed = true :=
  roomStorage.run_wellFormed history newRoomStorage (by decide)

/-- A `serveWs` request with a token of `m` and a successful upgrade leaves `m`
in the member set of its room with the flag true. -/
theorem roomStorage.serveWs_flag (s : roomStorage) (hwf : s.wellFormed = true) (m : UserPtr)
    (hm : m < s.heap.length) (token : String) (conn : Nat)
    (ht : mapGet s.users token = some m) :
    (s.step (Action.serveWs token (some conn))).flagOf m = some true := by
  have hu : s.heap[m]? = some s.heap[m] := List.getElem?_eq_getElem hm
  have hsome := (roomStorage.wellFormed_iff s).1 hwf s.heap[m] (List.getElem_mem hm)
  cases hr : mapGet s.rooms s.heap[m].room with
  | none => simp [hr] at hsome
  | some room =>
    simp only [roomStorage.step, roomStorage.serveWs_storage, ht]
    simp [User.connect, hu, hr, roomStorage.flagOf, List.getElem?_set_self, hm, Room.connect,
      mapGet_mapSet_self]

theorem roomStorage.isMember_eq_flagOf (s : roomStorage) (m : UserPtr) :
    s.isMember m = (s.flagOf m).isSome := by
  cases hu : s.heap[m]? with
  | none => simp [roomStorage.isMember, roomStorage.flagOf, hu]
  | some u =>
    cases hr : mapGet s.rooms u.room with
    | none => simp [roomStorage.isMember, roomStorage.flagOf, hu, hr]
    | some room => simp [roomStorage.isMember, roomStorage.flagOf, hu, hr]

theorem Room.reserved_iff (names : UserPtr → String) (room : Room) (userName : String) :
    Room.reserved names room userName = true ↔
      ∃ u, (mapGet room.users u).isSome = true ∧ names u = userName := by
  simp only [Room.reserved, List.any_eq_true, decide_eq_true_eq]
  constructor
  · rintro ⟨u, hu, hn⟩
    obtain ⟨v, hv⟩ := (mapGet_isSome_iff room.users u).2 hu
    exact ⟨u, by simp [hv], hn⟩
  · rintro ⟨u, hu, hn⟩
    refine ⟨u, (mapGet_isSome_iff room.users u).1 ?_, hn⟩
    cases hv : mapGet room.users u with
    | none => simp [hv] at hu
    | some v => exact ⟨v, rfl⟩

theorem roomStorage.serveAuth_responses (s : roomStorage) (req : AuthRequest) (token : String)
    (hok : ¬ (req.RoomName = "" ∨ req.UserName = "")) :
    (s.serveAuth (some req) token).2 =
      (if Room.reserved (s.getOrCreateRoom req.RoomName).1.names
          (s.getOrCreateRoom req.RoomName).2 req.UserName then [Response.conflict] else []) ++
        [Response.ok token] := by
  simp only [roomStorage.serveAuth, hok, if_false]

/-- C8 fails: the member of token `"t1"` attaches, is detached by the
`unregister` case, and is back in the member set of its room, with the flag
true, once `"t1"` is redeemed again through `serveWs`. -/
theorem roomStorage.detached_member_rejoins :
    (newRoomStorage.run
      [Action.serveAuth (some { RoomName := "standup", UserName := "alice" }) "t1",
        Action.serveWs "t1" (some 1),
        Action.unregister 0 [0, 1, 2, 3, 4]]).isMember 0 = false ∧
    (newRoomStorage.run
      [Action.serveAuth (some { RoomName := "standup", UserName := "alice" }) "t1",
        Action.serveWs "t1" (some 1),
        Action.unregister 0 [0, 1, 2, 3, 4],
        Action.serveWs "t1" (some 2)]).isMember 0 = true ∧
    (newRoomStorage.run
      [Action.serveAuth (some { RoomName := "standup", UserName := "alice" }) "t1",
        Action.serveWs "t1" (some 1),
        Action.unregister 0 [0, 1, 2, 3, 4],
        Action.serveWs "t1" (some 2)]).flagOf 0 = some true := by
  decide

/-- C8 as amended: a member detached by the `unregister` case stays out of the
member set of its room through every sequence of `serveAuth`, `serveWs`,
`processMessage` and `unregister` in which no `serveWs` with a successful
upgrade redeems a token of that member; a `serveWs` that redeems such a token
with a successful upgrade puts the member back with its flag true.  The
storage is any in which every user's room is in the registry, as it is in
every storage reached from `newRoomStorage`. -/
theorem roomStorage.detached_stays_out (s : roomStorage) (hwf : s.wellFormed = true)
    (m : UserPtr) (hm : m < s.heap.length) (order : List Nat) (actions : List Action)
    (hnever : roomStorage.neverRedeems m (s.step (Action.unregister m order)) actions = true) :
    ((s.step (Action.unregister m order)).run actions).isMember m = false ∧
    ((s.step (Action.unregister m order)).run actions).flagOf m = none ∧
    ∀ token conn,
      mapGet ((s.step (Action.unregister m order)).run actions).users token = some m →
      (((s.step (Action.unregister m order)).run actions).step
        (Action.serveWs token (some conn))).flagOf m = some true := by
  have hm' : m < (s.step (Action.unregister m order)).heap.length := by
    simpa [roomStorage.step, roomStorage.onRoom_heap] using hm
  obtain ⟨hout, hlen⟩ := roomStorage.run_absent m actions _ hm' hnever
    (roomStorage.unregister_isMember s m order)
  have hwf' := roomStorage.run_wellFormed actions _
    (roomStorage.step_wellFormed s (Action.unregister m order) hwf)
  refine ⟨hout, ?_, ?_⟩
  · rw [roomStorage.isMember_eq_flagOf] at hout
    cases hf : ((s.step (Action.unregister m order)).run actions).flagOf m with
    | none => rfl
    | some flag => simp [hf] at hout
  · intro token conn ht
    exact roomStorage.serveWs_flag _ hwf' m hlen token conn ht

/-- Witness of C8 as amended: `alice` (member `0`) is detached; then `bob`
authenticates, attaches and joins priority `2`, and a `serveWs` request with
`"t1"` fails to upgrade: `alice` is still out.  She is back, flag true, once
`"t1"` is redeemed with a successful upgrade. -/
theorem roomStorage.detached_stays_out_witness :
    (((newRoomStorage.run
      [Action.serveAuth (some { RoomName := "standup", UserName := "alice" }) "t1",
        Action.serveWs "t1" (some 1)]).step (Action.unregister 0 [0, 1, 2, 3, 4])).run
      [Action.serveAuth (some { RoomName := "standup", UserName := "bob" }) "t2",
        Action.serveWs "t2" (some 2),
        Action.processMessage 1 (some { Priority := 2, Cancel := false }),
        Action.serveWs "t1" none]).isMember 0 = false ∧
    ((((newRoomStorage.run
      [Action.serveAuth (some { RoomName := "standup", UserName := "alice" }) "t1",
        Action.serveWs "t1" (some 1)]).step (Action.unregister 0 [0, 1, 2, 3, 4])).run
      [Action.serveAuth (some { RoomName := "standup", UserName := "bob" }) "t2",
        Action.serveWs "t2" (some 2),
        Action.processMessage 1 (some { Priority := 2, Cancel := false }),
        Action.serveWs "t1" none]).step
      (Action.serveWs "t1" (some 3))).flagOf 0 = some true :=
  ⟨(roomStorage.detached_stays_out
      (newRoomStorage.run
        [Action.serveAuth (some { RoomName := "standup", UserName := "alice" }) "t1",
          Action.serveWs "t1" (some 1)])
      (by decide) 0 (by decide) [0, 1, 2, 3, 4]
      [Action.serveAuth (some { RoomName := "standup", UserName := "bob" }) "t2",
        Action.serveWs "t2" (some 2),
        Action.processMessage 1 (some { Priority := 2, Cancel := false }),
        Action.serveWs "t1" none]
      (by decide)).1,
    (roomStorage.detached_stays_out
      (newRoomStorage.run
        [Action.serveAuth (some { RoomName := "standup", UserName := "alice" }) "t1",
          Action.serveWs "t1" (some 1)])
      (by decide) 0 (by decide) [0, 1, 2, 3, 4]
      [Action.serveAuth (some { RoomName := "standup", UserName := "bob" }) "t2",
        Action.serveWs "t2" (some 2),
        Action.processMessage 1 (some { Priority := 2, Cancel := false }),
        Action.serveWs "t1" none]
      (by decide)).2.2 "t1" 3 (by decide)⟩

/-- C9 fails: two `serveAuth` requests for the name `"bob"` in the room
`"standup"` arrive before either token is redeemed; neither gets the conflict
response, and after both tokens are redeemed the member set holds two
distinct members named `"bob"`. -/
theorem roomStorage.names_not_unique :
    (newRoomStorage.serveAuth (some { RoomName := "standup", UserName := "bob" }) "t1").2
      = [Response.ok "t1"] ∧
    ((newRoomStorage.run
      [Action.serveAuth (some { RoomName := "standup", UserName := "bob" }) "t1"]).serveAuth
      (some { RoomName := "standup", UserName := "bob" }) "t2").2 = [Response.ok "t2"] ∧
    ¬ (newRoomStorage.run
      [Action.serveAuth (some { RoomName := "standup", UserName := "bob" }) "t1",
        Action.serveAuth (some { RoomName := "standup", UserName := "bob" }) "t2",
        Action.serveWs "t1" (some 1),
        Action.serveWs "t2" (some 2)]).namesUnique := by
  refine ⟨by decide, by decide, ?_⟩
  intro h
  have h01 := h "standup"
    { name := "standup", users := [(0, true), (1, true)],
      queues := [(0, []), (1, []), (2, []), (3, []), (4, [])] }
    (by decide) 0 1 (by decide) (by decide) (by decide)
  exact absurd h01 (by decide)

/-- C9 as amended: for a well-formed request `serveAuth` writes the conflict
response exactly when some member in the member set of the requested room
already has the requested name. -/
theorem roomStorage.serveAuth_conflict_iff (s : roomStorage) (req : AuthRequest)
    (token : String) (hroom : req.RoomName ≠ "") (hname : req.UserName ≠ "") :
    Response.conflict ∈ (s.serveAuth (some req) token).2 ↔
      ∃ room, mapGet s.rooms req.RoomName = some room ∧
        ∃ u, (mapGet room.users u).isSome = true ∧ s.names u = req.UserName := by
  have hok : ¬ (req.RoomName = "" ∨ req.UserName = "") := by
    rintro (h | h)
    · exact hroom h
    · exact hname h
  rw [roomStorage.serveAuth_responses s req token hok]
  obtain ⟨hheap, _, hc⟩ := roomStorage.getOrCreateRoom_cases s req.RoomName
  have hnames : (s.getOrCreateRoom req.RoomName).1.names = s.names := by
    funext u
    simp only [roomStorage.names, hheap]
  rw [hnames]
  have hmem : Response.conflict ∈
      (if Room.reserved s.names (s.getOrCreateRoom req.RoomName).2 req.UserName
        then [Response.conflict] else []) ++ [Response.ok token] ↔
      Room.reserved s.names (s.getOrCreateRoom req.RoomName).2 req.UserName = true := by
    split_ifs with hres <;> simp [hres]
  rw [hmem, Room.reserved_iff]
  rcases hc with ⟨room, hr, hs⟩ | ⟨hnone, hs⟩
  · rw [hs, hr]
    simp
  · rw [hs, hnone]
    simp [newRoom, mapGet]

/-- Witness of C9 as amended: `bob` is attached in `"standup"` and a second
request asks for the same name. -/
theorem roomStorage.serveAuth_conflict_iff_witness :
    Response.conflict ∈ ((newRoomStorage.run
      [Action.serveAuth (some { RoomName := "standup", UserName := "bob" }) "t1",
        Action.serveWs "t1" (some 1)]).serveAuth
      (some { RoomName := "standup", UserName := "bob" }) "t2").2 :=
  (roomStorage.serveAuth_conflict_iff
    (newRoomStorage.run
      [Action.serveAuth (some { RoomName := "standup", UserName := "bob" }) "t1",
        Action.serveWs "t1" (some 1)])
    { RoomName := "standup", UserName := "bob" } "t2" (by decide) (by decide)).2
    ⟨{ name := "standup", users := [(0, true)],
        queues := [(0, []), (1, []), (2, []), (3, []), (4, [])] },
      by decide, 0, by decide, by decide⟩

end Automoderation
